import Mathlib

/-!
Verification of the Repository Structural Analysis Engine
(`tree-builder.ts`, `insights-analyzer.ts`, `subsystem-analyzer.ts`).

The TypeScript sources are shallowly embedded below: every embedded
definition mirrors one source function (same name where Lean allows it).
JavaScript host-library primitives (`String.prototype.split`,
`localeCompare`, `Array.prototype.sort`, `JSON.parse`, regular-expression
matching) are modelled by executable Lean functions; each model carries a
comment stating which primitive it stands for and the scope of the model.
Numbers are modelled by `Nat`/`Rat` (all machine arithmetic in scope is
small-integer or short-decimal arithmetic, exact in IEEE doubles).
-/

/-! ### Character and string primitives -/

/-- Substring scan used to model `String.prototype.includes`. -/
def listInfixOf (needle : List Char) : List Char → Bool
  | [] => needle.isPrefixOf []
  | c :: t => needle.isPrefixOf (c :: t) || listInfixOf needle t

/-- `String.prototype.includes` (substring containment). -/
def jsIncludes (hay needle : String) : Bool :=
  listInfixOf needle.data hay.data

/-- `String.prototype.startsWith`. -/
def jsStartsWith (s pre : String) : Bool :=
  pre.data.isPrefixOf s.data

/-- `String.prototype.endsWith`. -/
def jsEndsWith (s suf : String) : Bool :=
  suf.data.isSuffixOf s.data

/-- ASCII lower-casing of one character (scope of `toLowerCase` used here). -/
def lowerChar (c : Char) : Char :=
  if 65 ≤ c.toNat ∧ c.toNat ≤ 90 then Char.ofNat (c.toNat + 32) else c

/-- `String.prototype.toLowerCase`, ASCII scope. -/
def jsToLower (s : String) : String :=
  ⟨s.data.map lowerChar⟩

/-- Whitespace class of JavaScript (`\s`, `trim`), ASCII scope. -/
def wsChar (c : Char) : Bool :=
  c = ' ' ∨ c.toNat = 9 ∨ c.toNat = 10 ∨ c.toNat = 13 ∨ c.toNat = 12 ∨ c.toNat = 11

/-- `String.prototype.trim`. -/
def jsTrim (s : String) : String :=
  ⟨(s.data.dropWhile wsChar).reverse.dropWhile wsChar |>.reverse⟩

/-- `String.prototype.split(sep)` for a one-character separator, on char lists.
Keeps empty pieces, like JavaScript. -/
def splitCharsOn (sep : Char) : List Char → List (List Char)
  | [] => [[]]
  | c :: rest =>
    match splitCharsOn sep rest with
    | [] => [[]]
    | seg :: segs => if c = sep then [] :: seg :: segs else (c :: seg) :: segs

/-- Joining with a one-character separator (inverse of `splitCharsOn`). -/
def joinCharsWith (sep : Char) : List (List Char) → List Char
  | [] => []
  | [seg] => seg
  | seg :: rest => seg ++ sep :: joinCharsWith sep rest

theorem splitCharsOn_ne_nil (sep : Char) (l : List Char) : splitCharsOn sep l ≠ [] := by
  cases l with
  | nil => simp [splitCharsOn]
  | cons c rest =>
    simp only [splitCharsOn]
    cases h : splitCharsOn sep rest with
    | nil => simp
    | cons seg segs => by_cases hc : c = sep <;> simp [hc]

theorem joinCharsWith_splitCharsOn (sep : Char) (l : List Char) :
    joinCharsWith sep (splitCharsOn sep l) = l := by
  induction l with
  | nil => rfl
  | cons c rest ih =>
    simp only [splitCharsOn]
    cases h : splitCharsOn sep rest with
    | nil => exact absurd h (splitCharsOn_ne_nil sep rest)
    | cons seg segs =>
      rw [h] at ih
      by_cases hc : c = sep
      · subst hc
        simpa [joinCharsWith] using ih
      · simp only [if_neg hc]
        cases segs with
        | nil => simpa [joinCharsWith] using ih
        | cons s2 ss => simpa [joinCharsWith] using ih

/-- `String.prototype.split(sep)` (one-character separator), on strings. -/
def jsSplit (s : String) (sep : Char) : List String :=
  (splitCharsOn sep s.data).map String.mk

/-- `path.split(sep).pop() || ""`: the last piece of a split. -/
def lastPiece (s : String) (sep : Char) : String :=
  ((jsSplit s sep).getLast?).getD ""

/-! ### The collation model for `String.prototype.localeCompare`

`localeCompare` (default locale, ICU root collation) is modelled for the
ASCII repertoire by a two-level collation key: a primary level that is
case-insensitive and orders punctuation below digits below letters, and a
tertiary level that orders lowercase before uppercase.  The two levels are
concatenated with a `0` separator, so that a string that is a strict prefix
of another compares strictly below it.  This reproduces the ICU behaviour
on the alphanumeric-and-separator file paths handled by the engine. -/

def primaryWeight (c : Char) : Nat :=
  if 65 ≤ c.toNat ∧ c.toNat ≤ 90 then 1000 + (c.toNat + 32)
  else if 97 ≤ c.toNat ∧ c.toNat ≤ 122 then 1000 + c.toNat
  else c.toNat + 1

def tertiaryWeight (c : Char) : Nat :=
  if 65 ≤ c.toNat ∧ c.toNat ≤ 90 then 1 else 0

def collationKey (s : String) : List Nat :=
  s.data.map primaryWeight ++ 0 :: s.data.map tertiaryWeight

/-- Lexicographic `≤` on weight lists. -/
def keyLe : List Nat → List Nat → Bool
  | [], _ => true
  | _ :: _, [] => false
  | a :: as, b :: bs => if a < b then true else if b < a then false else keyLe as bs

/-- `a.localeCompare(b) <= 0` in the collation model. -/
def localeLe (a b : String) : Bool :=
  keyLe (collationKey a) (collationKey b)

theorem keyLe_total (a b : List Nat) : keyLe a b || keyLe b a := by
  induction a generalizing b with
  | nil => simp [keyLe]
  | cons x xs ih =>
    cases b with
    | nil => simp [keyLe]
    | cons y ys =>
      simp only [keyLe]
      rcases Nat.lt_trichotomy x y with h | h | h
      · simp [h]
      · subst h
        simpa [Nat.lt_irrefl] using ih ys
      · simp [h, Nat.not_lt.mpr (Nat.le_of_lt h)]

theorem keyLe_trans {a b c : List Nat} (hab : keyLe a b = true) (hbc : keyLe b c = true) :
    keyLe a c = true := by
  induction a generalizing b c with
  | nil => simp [keyLe]
  | cons x xs ih =>
    cases b with
    | nil => simp [keyLe] at hab
    | cons y ys =>
      cases c with
      | nil => simp [keyLe] at hbc
      | cons z zs =>
        simp only [keyLe] at hab hbc ⊢
        rcases Nat.lt_trichotomy x y with hxy | hxy | hxy
        · rcases Nat.lt_trichotomy y z with hyz | hyz | hyz
          · simp [Nat.lt_trans hxy hyz]
          · subst hyz; simp [hxy]
          · simp [hyz, Nat.not_lt.mpr (Nat.le_of_lt hyz)] at hbc
        · subst hxy
          rcases Nat.lt_trichotomy x z with hyz | hyz | hyz
          · simp [hyz]
          · subst hyz
            simp only [Nat.lt_irrefl, if_false] at hab hbc ⊢
            exact ih hab hbc
          · simp [hyz, Nat.not_lt.mpr (Nat.le_of_lt hyz)] at hbc
        · simp [hxy, Nat.not_lt.mpr (Nat.le_of_lt hxy)] at hab

theorem localeLe_total (a b : String) : localeLe a b || localeLe b a :=
  keyLe_total _ _

theorem localeLe_trans {a b c : String} (hab : localeLe a b = true)
    (hbc : localeLe b c = true) : localeLe a c = true :=
  keyLe_trans hab hbc

theorem primaryWeight_pos (c : Char) : 0 < primaryWeight c := by
  unfold primaryWeight
  split <;> [omega; skip]
  split <;> omega

theorem keyLe_append_left (p u v : List Nat) : keyLe (p ++ u) (p ++ v) = keyLe u v := by
  induction p with
  | nil => rfl
  | cons x xs ih => simp [keyLe, ih]

/-- A string followed by one more character (and anything after it) sorts
strictly above the string itself in the collation model. -/
theorem localeLe_extension (a : String) (c : Char) (rest : List Char) :
    localeLe a ⟨a.data ++ c :: rest⟩ = true ∧ localeLe ⟨a.data ++ c :: rest⟩ a = false := by
  have hpw := primaryWeight_pos c
  unfold localeLe collationKey
  simp only [List.map_append, List.map_cons, List.append_assoc]
  rw [show (a.data.map primaryWeight ++ (0 :: a.data.map tertiaryWeight)) =
      a.data.map primaryWeight ++ (0 :: a.data.map tertiaryWeight) from rfl]
  constructor
  · rw [keyLe_append_left]
    simp [keyLe, hpw]
  · rw [keyLe_append_left]
    simp [keyLe, hpw, Nat.not_lt.mpr (Nat.le_of_lt hpw)]

/-! ### JavaScript `Map` (string-keyed, insertion-ordered), as an association list.
`Map.set` keeps the original position of an existing key. -/

def jsMapGet {α : Type} (m : List (String × α)) (k : String) : Option α :=
  (m.find? (fun e => e.1 == k)).map Prod.snd

def jsMapSet {α : Type} (m : List (String × α)) (k : String) (v : α) : List (String × α) :=
  if m.any (fun e => e.1 == k) then m.map (fun e => if e.1 == k then (k, v) else e)
  else m ++ [(k, v)]

/-! ### `Array.prototype.sort(comparator)`

Modelled as a stable insertion sort (modern JavaScript engines sort
stably); `le a b` is `comparator(a, b) <= 0`. -/

def insertSorted {α : Type} (le : α → α → Bool) (a : α) : List α → List α
  | [] => [a]
  | b :: l => if le a b then a :: b :: l else b :: insertSorted le a l

def jsSortBy {α : Type} (le : α → α → Bool) : List α → List α
  | [] => []
  | a :: l => insertSorted le a (jsSortBy le l)

theorem insertSorted_perm {α : Type} (le : α → α → Bool) (a : α) (l : List α) :
    (insertSorted le a l).Perm (a :: l) := by
  induction l with
  | nil => exact List.Perm.refl _
  | cons b l ih =>
    simp only [insertSorted]
    split
    · exact List.Perm.refl _
    · exact (List.Perm.cons b ih).trans (List.Perm.swap a b l)

theorem jsSortBy_perm {α : Type} (le : α → α → Bool) (l : List α) :
    (jsSortBy le l).Perm l := by
  induction l with
  | nil => exact List.Perm.refl _
  | cons a l ih =>
    exact (insertSorted_perm le a (jsSortBy le l)).trans (List.Perm.cons a ih)

theorem insertSorted_pairwise {α : Type} (le : α → α → Bool)
    (htrans : ∀ a b c, le a b = true → le b c = true → le a c = true)
    (htotal : ∀ a b, (le a b || le b a) = true)
    (a : α) (l : List α) (h : l.Pairwise (fun x y => le x y = true)) :
    (insertSorted le a l).Pairwise (fun x y => le x y = true) := by
  induction l with
  | nil => simp [insertSorted]
  | cons b l ih =>
    rcases List.pairwise_cons.mp h with ⟨hb, hl⟩
    simp only [insertSorted]
    split
    · rename_i hab
      refine List.pairwise_cons.mpr ⟨?_, h⟩
      intro y hy
      rcases List.mem_cons.mp hy with hy | hy
      · subst hy; exact hab
      · exact htrans a b y hab (hb y hy)
    · rename_i hab
      have hba : le b a = true := by
        have := htotal a b
        simp only [Bool.or_eq_true] at this
        rcases this with h1 | h1
        · exact absurd h1 hab
        · exact h1
      refine List.pairwise_cons.mpr ⟨?_, ih hl⟩
      intro y hy
      have hmem := (insertSorted_perm le a l).mem_iff.mp hy
      rcases List.mem_cons.mp hmem with hy' | hy'
      · subst hy'; exact hba
      · exact hb y hy'

theorem jsSortBy_pairwise {α : Type} (le : α → α → Bool)
    (htrans : ∀ a b c, le a b = true → le b c = true → le a c = true)
    (htotal : ∀ a b, (le a b || le b a) = true)
    (l : List α) :
    (jsSortBy le l).Pairwise (fun x y => le x y = true) := by
  induction l with
  | nil => simp [jsSortBy]
  | cons a l ih => exact insertSorted_pairwise le htrans htotal a (jsSortBy le l) ih

/-- Bump a counter entry, `map.set(k, (map.get(k) || 0) + 1)`. -/
def jsMapIncr (m : List (String × Nat)) (k : String) : List (String × Nat) :=
  jsMapSet m k ((jsMapGet m k).getD 0 + 1)

/-! ## Data model (`types.ts`) -/

/-- `RepositoryFile` of `types.ts`. -/
structure RepositoryFile where
  path : String
  content : String
  size : Nat
  type : String
deriving DecidableEq

/-- `GitHubRepository` of `types.ts` (the fields the engine reads). -/
structure GitHubRepository where
  name : String
  language : Option String

/-- `SubsystemInfo` of `subsystem-analyzer.ts`; the `type` union is modelled
by its string values `"frontend" | "backend" | "data" | "config"`. -/
structure SubsystemInfo where
  name : String
  type : String
  files : List String
  confidence : Rat
  description : String

/-! ## Tree builder (`tree-builder.ts`) -/

inductive NodeKind where
  | file
  | directory
deriving DecidableEq

/-! `TreeNode` of `tree-builder.ts`.  The optional `children` array is the
`Children` variant (`undef` = the field is absent); `Forest` is a list of
sibling nodes (a mutual inductive so that structural recursion over the
tree is available). -/
mutual
inductive TreeNode where
  | mk (name : String) (type : NodeKind) (path : String) (children : Children)
      (subsystemType : Option String) (fileType : Option String) (size : Option Nat)
inductive Children where
  | undef
  | arr (cs : Forest)
inductive Forest where
  | nil
  | cons (hd : TreeNode) (tl : Forest)
end

def TreeNode.name : TreeNode → String
  | .mk n _ _ _ _ _ _ => n

def TreeNode.type : TreeNode → NodeKind
  | .mk _ k _ _ _ _ _ => k

def TreeNode.path : TreeNode → String
  | .mk _ _ p _ _ _ _ => p

def TreeNode.children : TreeNode → Children
  | .mk _ _ _ c _ _ _ => c

def TreeNode.subsystemType : TreeNode → Option String
  | .mk _ _ _ _ st _ _ => st

def TreeNode.fileType : TreeNode → Option String
  | .mk _ _ _ _ _ ft _ => ft

def TreeNode.withChildren : TreeNode → Children → TreeNode
  | .mk n k p _ st ft sz, c => .mk n k p c st ft sz

def Forest.toList : Forest → List TreeNode
  | .nil => []
  | .cons t ts => t :: ts.toList

def Forest.ofList : List TreeNode → Forest
  | [] => .nil
  | t :: ts => .cons t (Forest.ofList ts)

/-- `currentNode.children.find(child => child.name === part)`. -/
def forestFind : Forest → String → Option TreeNode
  | .nil, _ => none
  | .cons t ts, n => if t.name == n then some t else forestFind ts n

/-- Replace the (first) sibling named `n`. -/
def forestReplace : Forest → String → TreeNode → Forest
  | .nil, _, _ => .nil
  | .cons t ts, n, t' => if t.name == n then .cons t' ts else .cons t (forestReplace ts n t')

/-- `children.push(newNode)`. -/
def forestAppend : Forest → TreeNode → Forest
  | .nil, t => .cons t .nil
  | .cons h ts, t => .cons h (forestAppend ts t)

/-- `ProjectTree` of `tree-builder.ts`. -/
structure ProjectTree where
  root : TreeNode
  totalFiles : Nat
  totalDirectories : Nat
  maxDepth : Nat

/-- `file.path.split("/").filter(Boolean)`. -/
def pathParts (p : String) : List String :=
  (jsSplit p '/').filter (fun s => s ≠ "")

/-- The children of an existing node being descended into:
`if (!currentNode.children) currentNode.children = []`. -/
def childForest (node : TreeNode) : Forest :=
  match node.children with
  | .undef => .nil
  | .arr f => f

/-- The per-file walk of `buildProjectTree`'s inner `for` loop: walk/create
nodes for the given path segments inside a sibling forest, returning the
updated forest and the numbers of file and directory nodes created. -/
def insertSegs (smap : List (String × String)) (file : RepositoryFile) :
    List String → String → Forest → Forest × Nat × Nat
  | [], _, cs => (cs, 0, 0)
  | part :: rest, soFar, cs =>
    let isFile := rest.isEmpty
    let currentPath := if soFar = "" then part else soFar ++ "/" ++ part
    match forestFind cs part with
    | none =>
      if isFile then
        let newNode : TreeNode := .mk part .file currentPath .undef
          (jsMapGet smap currentPath) (some file.type) (some file.size)
        (forestAppend cs newNode, 1, 0)
      else
        let (sub, f, d) := insertSegs smap file rest currentPath .nil
        let newNode : TreeNode := .mk part .directory currentPath (.arr sub)
          (jsMapGet smap currentPath) none none
        (forestAppend cs newNode, f, d + 1)
    | some node =>
      if isFile then (cs, 0, 0)
      else
        let (sub, f, d) := insertSegs smap file rest currentPath (childForest node)
        (forestReplace cs part (node.withChildren (.arr sub)), f, d)

/-- The comparator of `sortTreeNode`: directories first, then
`a.name.localeCompare(b.name)`. -/
def nodeLe (a b : TreeNode) : Bool :=
  match a.type, b.type with
  | .directory, .file => true
  | .file, .directory => false
  | _, _ => localeLe a.name b.name

/-! `sortTreeNode`: recursively sort every directory's children with
`nodeLe`.  (The source sorts a level and then recurses into the sorted
children; since `nodeLe` only reads `type` and `name`, which the recursion
never changes, recursing first and sorting after — as written here to keep
the recursion structural — produces the same tree.) -/
mutual
def sortTreeNode : TreeNode → TreeNode
  | .mk n k p c st ft sz =>
    match c with
    | .undef => .mk n k p .undef st ft sz
    | .arr cs => .mk n k p (.arr (Forest.ofList (jsSortBy nodeLe (sortForestList cs)))) st ft sz
def sortForestList : Forest → List TreeNode
  | .nil => []
  | .cons t ts => sortTreeNode t :: sortForestList ts
end

/-- `files.sort((a, b) => a.path.localeCompare(b.path))` — the in-place sort
at the top of `buildProjectTree`; this value is also what the caller's array
holds after the call. -/
def sortedBuildFiles (files : List RepositoryFile) : List RepositoryFile :=
  jsSortBy (fun a b => localeLe a.path b.path) files

/-- One iteration of `buildProjectTree`'s `sortedFiles.forEach` loop over the
running state (sibling forest of the root, totalFiles, totalDirectories,
maxDepth). -/
def buildStep (smap : List (String × String)) (st : Forest × Nat × Nat × Nat)
    (file : RepositoryFile) : Forest × Nat × Nat × Nat :=
  let parts := pathParts file.path
  let maxD := max st.2.2.2 parts.length
  let r := insertSegs smap file parts "" st.1
  (r.1, st.2.1 + r.2.1, st.2.2.1 + r.2.2, maxD)

/-- `buildProjectTree(files, subsystems)`. -/
def buildProjectTree (files : List RepositoryFile)
    (subsystems : List SubsystemInfo) : ProjectTree :=
  let subsystemMap := subsystems.foldl
    (fun m s => s.files.foldl (fun m fp => jsMapSet m fp s.type) m) []
  let sortedFiles := sortedBuildFiles files
  let st := sortedFiles.foldl (buildStep subsystemMap) (Forest.nil, 0, 0, 0)
  let root : TreeNode := .mk "root" .directory "" (.arr st.1) none none none
  { root := sortTreeNode root, totalFiles := st.2.1,
    totalDirectories := st.2.2.1, maxDepth := st.2.2.2 }

/-! ## A model of `JSON.parse`

`Json` values and a fuel-driven recursive-descent reader.  String escapes
follow JSON; the number token is modelled loosely (a maximal run of numeric
characters), which only widens acceptance on malformed manifests — such
files are skipped by the per-file `catch` either way.  Duplicate object
keys: lookup takes the last occurrence (JavaScript semantics). -/

inductive Json where
  | null
  | bool (b : Bool)
  | num (raw : String)
  | str (s : String)
  | arr (xs : List Json)
  | obj (fields : List (String × Json))

def hexVal (c : Char) : Option Nat :=
  if '0' ≤ c ∧ c ≤ '9' then some (c.toNat - 48)
  else if 'a' ≤ c ∧ c ≤ 'f' then some (c.toNat - 87)
  else if 'A' ≤ c ∧ c ≤ 'F' then some (c.toNat - 55)
  else none

def jsonStringBody : Nat → List Char → Except String (List Char × List Char)
  | 0, _ => .error "fuel"
  | _ + 1, [] => .error "unterminated string"
  | fuel + 1, c :: rest =>
    if c.toNat = 34 then .ok ([], rest)
    else if c.toNat = 92 then
      match rest with
      | [] => .error "bad escape"
      | e :: rest2 =>
        if e = 'u' then
          match rest2 with
          | h1 :: h2 :: h3 :: h4 :: rest3 =>
            match hexVal h1, hexVal h2, hexVal h3, hexVal h4 with
            | some a, some b, some c2, some d =>
              (jsonStringBody fuel rest3).map
                (fun r => (Char.ofNat (a * 4096 + b * 256 + c2 * 16 + d) :: r.1, r.2))
            | _, _, _, _ => .error "bad unicode escape"
          | _ => .error "bad unicode escape"
        else
          match
            (if e.toNat = 34 then some (Char.ofNat 34)
             else if e.toNat = 92 then some (Char.ofNat 92)
             else if e = '/' then some '/'
             else if e = 'n' then some (Char.ofNat 10)
             else if e = 't' then some (Char.ofNat 9)
             else if e = 'r' then some (Char.ofNat 13)
             else if e = 'b' then some (Char.ofNat 8)
             else if e = 'f' then some (Char.ofNat 12)
             else none) with
          | some ch => (jsonStringBody fuel rest2).map (fun r => (ch :: r.1, r.2))
          | none => .error "bad escape"
    else (jsonStringBody fuel rest).map (fun r => (c :: r.1, r.2))

def jsonNumChar (c : Char) : Bool :=
  ('0' ≤ c ∧ c ≤ '9') ∨ c = '-' ∨ c = '+' ∨ c = '.' ∨ c = 'e' ∨ c = 'E'

mutual
def jsonVal : Nat → List Char → Except String (Json × List Char)
  | 0, _ => .error "fuel"
  | fuel + 1, s0 =>
    match s0.dropWhile wsChar with
    | [] => .error "empty"
    | c :: rest =>
      if c.toNat = 34 then
        (jsonStringBody fuel rest).map (fun r => (.str ⟨r.1⟩, r.2))
      else if c.toNat = 123 then
        match rest.dropWhile wsChar with
        | c2 :: r2 => if c2.toNat = 125 then .ok (.obj [], r2) else jsonObjFields fuel rest []
        | [] => .error "unterminated object"
      else if c = '[' then
        match rest.dropWhile wsChar with
        | ']' :: r2 => .ok (.arr [], r2)
        | _ => jsonArrElems fuel rest []
      else if ("true".data.isPrefixOf (c :: rest)) then .ok (.bool true, (c :: rest).drop 4)
      else if ("false".data.isPrefixOf (c :: rest)) then .ok (.bool false, (c :: rest).drop 5)
      else if ("null".data.isPrefixOf (c :: rest)) then .ok (.null, (c :: rest).drop 4)
      else if ('0' ≤ c ∧ c ≤ '9') ∨ c = '-' then
        let tok := (c :: rest).takeWhile jsonNumChar
        .ok (.num ⟨tok⟩, (c :: rest).drop tok.length)
      else .error "unexpected character"

def jsonObjFields : Nat → List Char → List (String × Json) →
    Except String (Json × List Char)
  | 0, _, _ => .error "fuel"
  | fuel + 1, s, acc =>
    match s.dropWhile wsChar with
    | c :: rest =>
      if c.toNat = 34 then
        match jsonStringBody fuel rest with
        | .error e => .error e
        | .ok (key, r1) =>
          match r1.dropWhile wsChar with
          | ':' :: r2 =>
            match jsonVal fuel r2 with
            | .error e => .error e
            | .ok (v, r3) =>
              match r3.dropWhile wsChar with
              | ',' :: r4 => jsonObjFields fuel r4 (acc ++ [(⟨key⟩, v)])
              | cl :: r4 =>
                if cl.toNat = 125 then .ok (.obj (acc ++ [(⟨key⟩, v)]), r4)
                else .error "expected comma or closing brace"
              | [] => .error "unterminated object"
          | _ => .error "expected colon"
      else .error "expected key"
    | [] => .error "unterminated object"

def jsonArrElems : Nat → List Char → List Json → Except String (Json × List Char)
  | 0, _, _ => .error "fuel"
  | fuel + 1, s, acc =>
    match jsonVal fuel s with
    | .error e => .error e
    | .ok (v, r1) =>
      match r1.dropWhile wsChar with
      | ',' :: r2 => jsonArrElems fuel r2 (acc ++ [v])
      | ']' :: r2 => .ok (.arr (acc ++ [v]), r2)
      | _ => .error "expected comma or closing bracket"
end

/-- `JSON.parse` (model). -/
def jsonParse (s : String) : Except String Json :=
  match jsonVal (s.data.length + 8) s.data with
  | .ok (j, rest) => if (rest.dropWhile wsChar).isEmpty then .ok j else .error "trailing input"
  | .error e => .error e

/-- Property read `obj.k` on a parsed value (last duplicate key wins). -/
def jsonGet (j : Json) (k : String) : Option Json :=
  match j with
  | .obj fs => (fs.reverse.find? (fun e => e.1 == k)).map Prod.snd
  | _ => none

/-- JavaScript truthiness of a parsed value. -/
def jsonTruthy : Option Json → Bool
  | none => false
  | some .null => false
  | some (.bool b) => b
  | some (.num raw) => raw ≠ "0" ∧ raw ≠ "-0"
  | some (.str s) => s ≠ ""
  | some (.arr _) => true
  | some (.obj _) => true

/-- The key list of `Object.entries`/`Object.keys` on a parsed value
(string/array values enumerate index keys, per JavaScript). -/
def jsonEntryKeys : Option Json → List String
  | some (.obj fs) => (fs.map Prod.fst).eraseDups
  | some (.str s) => (List.range s.data.length).map toString
  | some (.arr xs) => (List.range xs.length).map toString
  | _ => []

/-! ## Insights analyzer (`insights-analyzer.ts`): data model -/

inductive DepType where
  | internal
  | external
deriving DecidableEq

/-- `DependencyInsight`. -/
structure DependencyInsight where
  name : String
  type : DepType
  count : Nat
deriving DecidableEq

structure QualityMetrics where
  avgTestFileSize : Nat
  testToSourceRatio : Rat
deriving DecidableEq

/-- `TestCoverageInsight`. -/
structure TestCoverageInsight where
  percentage : Nat
  testedFiles : Nat
  totalFiles : Nat
  testFiles : List String
  testFramework : Option String
  untestedFiles : List String
  testToSourceMapping : List (String × List String)
  qualityMetrics : QualityMetrics
deriving DecidableEq

/-- `InsightsData`. -/
structure InsightsData where
  dependencies : List DependencyInsight
  testCoverage : TestCoverageInsight

/-! ## Test coverage estimator (`analyzeTestCoverage`, `detectTestFramework`) -/

/-- `Math.round(num/den) * 1` for `den > 0` — exact-rational model of the
floating-point `Math.round((num / den))`: `floor(num/den + 1/2)`. -/
def jsRoundDiv (num den : Nat) : Nat :=
  (2 * num + den) / (2 * den)

/-- Extensions of the test-suffix pattern `/\.(test|spec)\.(js|jsx|ts|tsx|py|go|java|rs|php|rb)$/`. -/
def testSuffixExts : List String :=
  ["js", "jsx", "ts", "tsx", "py", "go", "java", "rs", "php", "rb"]

/-- The test-file filter callback of `analyzeTestCoverage` (applied to the
lower-cased path; `fileName = path.split("/").pop() || ""`). -/
def testFilePred (file : RepositoryFile) : Bool :=
  let path := jsToLower file.path
  let fileName := lastPiece path '/'
  testSuffixExts.any (fun ext =>
      jsEndsWith path (".test." ++ ext) || jsEndsWith path (".spec." ++ ext))
  || jsIncludes path "__tests__"
  || jsIncludes path "/tests/"
  || jsIncludes path "/test/"
  -- `/^test.*\.py$/.test(fileName)`
  || (jsStartsWith fileName "test" && jsEndsWith fileName ".py" && 7 ≤ fileName.data.length)
  || fileName == "conftest.py"
  || jsEndsWith path "_test.py"
  || jsEndsWith path "_test.go"
  || jsEndsWith path "_spec.rb"

/-- Extensions of the source-file pattern `/\.(js|jsx|ts|tsx|py|go|java|rs|php|rb|c|cpp|cs)$/`. -/
def coverageCodeExts : List String :=
  ["js", "jsx", "ts", "tsx", "py", "go", "java", "rs", "php", "rb", "c", "cpp", "cs"]

/-- The source-file filter callback of `analyzeTestCoverage`. -/
def sourceFilePred (testFiles : List RepositoryFile) (file : RepositoryFile) : Bool :=
  let path := jsToLower file.path
  let isCode := coverageCodeExts.any (fun ext => jsEndsWith path ("." ++ ext))
  let isTest := testFiles.any (fun testFile => testFile.path == file.path)
  let isExcluded :=
    jsIncludes path "node_modules" || jsIncludes path "dist/" ||
    jsIncludes path "build/" || jsIncludes path ".git/" ||
    jsIncludes path "coverage/" || jsEndsWith path ".d.ts" ||
    jsIncludes path "generated"
  isCode && !isTest && !isExcluded

/-- `s.replace(/\.(e1|e2|...)$/, "")`: strip one matching extension (the
listed extensions are pairwise non-overlapping as suffixes). -/
def stripExtOnce (s : String) (exts : List String) : String :=
  match exts.find? (fun ext => jsEndsWith s ("." ++ ext)) with
  | some ext => ⟨s.data.take (s.data.length - (ext.data.length + 1))⟩
  | none => s

/-- `detectTestFramework(files)`. -/
def detectTestFramework (files : List RepositoryFile) : Option String :=
  let packageJsonFile := files.find? (fun f => jsEndsWith f.path "package.json")
  let fromPkg : Option String :=
    match packageJsonFile with
    | none => none
    | some f =>
      match jsonParse f.content with
      | .error _ => none
      | .ok pkg =>
        -- `{...pkg.dependencies, ...pkg.devDependencies}`: object spread,
        -- devDependencies wins on a duplicate name
        let allDepsGet := fun (k : String) =>
          match (jsonGet pkg "devDependencies").bind (fun d => jsonGet d k) with
          | some v => some v
          | none => (jsonGet pkg "dependencies").bind (fun d => jsonGet d k)
        if jsonTruthy (allDepsGet "vitest") then some "Vitest"
        else if jsonTruthy (allDepsGet "jest") then some "Jest"
        else if jsonTruthy (allDepsGet "mocha") then some "Mocha"
        else if jsonTruthy (allDepsGet "cypress") then some "Cypress"
        else if jsonTruthy (allDepsGet "@playwright/test") then some "Playwright"
        else none
  match fromPkg with
  | some fw => some fw
  | none =>
    if files.any (fun f => jsEndsWith f.path "conftest.py") then some "pytest"
    else if files.any (fun f => jsEndsWith f.path "_test.go") then some "Go testing"
    else if files.any (fun f =>
        let fileName := lastPiece f.path '/'
        jsStartsWith fileName "test" && jsEndsWith fileName ".py" && 7 ≤ fileName.data.length)
      then some "pytest"
    else none

/-- `analyzeTestCoverage(files)`. -/
def analyzeTestCoverage (files : List RepositoryFile) : TestCoverageInsight :=
  let testFiles := files.filter testFilePred
  let sourceFiles := files.filter (sourceFilePred testFiles)
  let testFramework := detectTestFramework files
  let totalFiles := sourceFiles.length
  let testFileCount := testFiles.length
  let estimatedCoverage :=
    if 0 < totalFiles then min (jsRoundDiv (testFileCount * 100) totalFiles) 100 else 0
  let untestedFiles :=
    (((sourceFiles.filter (fun sourceFile =>
        let sourceName := stripExtOnce (lastPiece sourceFile.path '/') testSuffixExts
        !(testFiles.any (fun testFile =>
          jsIncludes (jsToLower testFile.path) (jsToLower sourceName))))).map
      (fun f => f.path)) |> jsSortBy (fun a b => decide (a ≤ b))).take 20
  { percentage := estimatedCoverage
    testedFiles := if 0 < testFileCount then max 1 (totalFiles - untestedFiles.length) else 0
    totalFiles := totalFiles
    testFiles := testFiles.map (fun f => f.path)
    testFramework := testFramework
    untestedFiles := untestedFiles
    testToSourceMapping := []
    qualityMetrics :=
      { avgTestFileSize := 0
        testToSourceRatio :=
          -- `Number((testFileCount / totalFiles).toFixed(2))`, exact-rational model
          if 0 < testFileCount ∧ 0 < totalFiles then
            (jsRoundDiv (testFileCount * 100) totalFiles : Rat) / 100
          else 0 } }

/-! ## Subsystem classifier (`subsystem-analyzer.ts`) -/

/-- `PatternRule` (the `match` field is named `matchStrs`, `match` being a
Lean keyword). -/
structure PatternRule where
  matchStrs : List String
  weight : Rat

structure SubsystemConfig where
  name : String
  type : String
  description : String
  patterns : List PatternRule

structure SubsystemAnalysis where
  subsystems : List SubsystemInfo
  projectType : String

def CONFIDENCE_THRESHOLD : Rat := 0.4

def FILE_COUNT_NORMALIZER : Nat := 5

/-- `SUBSYSTEM_CONFIGS` (in `Object.values` order: frontend, backend, data,
config). -/
def SUBSYSTEM_CONFIGS : List SubsystemConfig :=
  [ { name := "Frontend", type := "frontend",
      description := "User interface components and frontend logic",
      patterns :=
        [ ⟨["pages/", "components/", "src/components/", "src/pages/", "views/",
            "src/views/"], 0.8⟩,
          ⟨[".jsx", ".tsx", ".vue", ".svelte"], 0.7⟩,
          ⟨["public/", "static/", "assets/"], 0.6⟩,
          ⟨["styles/", "css/", "scss/"], 0.5⟩ ] },
    { name := "Backend", type := "backend",
      description := "Server-side logic and business rules",
      patterns :=
        [ ⟨["server/", "backend/", "api/"], 0.8⟩,
          ⟨["controllers/", "handlers/", "routes/"], 0.7⟩,
          ⟨["services/", "business/", "domain/"], 0.6⟩,
          ⟨["/api/", ".route.", ".endpoint.", ".api."], 0.6⟩ ] },
    { name := "Data Layer", type := "data",
      description := "Database models, schemas, and data access logic",
      patterns :=
        [ ⟨["models/", "database/", "db/", "data/"], 0.8⟩,
          ⟨["repositories/", "dao/", "orm/"], 0.7⟩,
          ⟨[".model.", ".schema.", ".migration."], 0.6⟩,
          ⟨["prisma/", "migrations/", "seeds/"], 0.6⟩ ] },
    { name := "Configuration", type := "config",
      description := "Configuration files and deployment settings",
      patterns :=
        [ ⟨["config/", "configuration/"], 0.7⟩,
          ⟨[".config.", ".env", ".json", ".yaml", ".yml"], 0.5⟩,
          ⟨["docker/", "k8s/", "kubernetes/", "deployment/"], 0.6⟩,
          ⟨["Dockerfile", "docker-compose"], 0.6⟩ ] } ]

/-- `findPatternMatches(filePaths, patterns)`. -/
def findPatternMatches (filePaths : List String) (patterns : List String) : List String :=
  filePaths.filter (fun path => patterns.any (fun pattern => jsIncludes path pattern))

/-- The pattern loop of `detectSubsystem`: accumulates the matched-file
`Set` (modelled as an insertion-ordered duplicate-free list) and the
running `totalScore`. -/
def detectFold (filePaths : List String) (config : SubsystemConfig) :
    List String × Rat :=
  config.patterns.foldl
    (fun (st : List String × Rat) pr =>
      let patternMatches := findPatternMatches filePaths pr.matchStrs
      if 0 < patternMatches.length then
        let matched := patternMatches.foldl
          (fun acc file => if acc.contains file then acc else acc ++ [file]) st.1
        let normalizedScore :=
          min ((patternMatches.length : Rat) / (FILE_COUNT_NORMALIZER : Rat)) 1
        (matched, st.2 + pr.weight * normalizedScore)
      else st)
    ([], 0)

/-- `detectSubsystem(filePaths, config)`. -/
def detectSubsystem (filePaths : List String) (config : SubsystemConfig) :
    Option SubsystemInfo :=
  let st := detectFold filePaths config
  if st.1.isEmpty then none
  else some
    { name := config.name, type := config.type, files := st.1,
      confidence := min st.2 1, description := config.description }

/-- `deduplicateSubsystems(subsystems)`: keep the highest-confidence entry
per `type`, then sort descending by confidence. -/
def deduplicateSubsystems (subsystems : List SubsystemInfo) : List SubsystemInfo :=
  let m := subsystems.foldl
    (fun (m : List (String × SubsystemInfo)) s =>
      match jsMapGet m s.type with
      | none => jsMapSet m s.type s
      | some existing =>
        if existing.confidence < s.confidence then jsMapSet m s.type s else m)
    []
  jsSortBy (fun a b => decide (b.confidence ≤ a.confidence)) (m.map Prod.snd)

def upperChar (c : Char) : Char :=
  if 97 ≤ c.toNat ∧ c.toNat ≤ 122 then Char.ofNat (c.toNat - 32) else c

/-- `language.charAt(0).toUpperCase() + language.slice(1)`. -/
def capitalizeFirst (s : String) : String :=
  match s.data with
  | [] => ""
  | c :: rest => ⟨upperChar c :: rest⟩

/-- `determineProjectType(repository, filePaths)` (the inner `try` body is
total, so the `catch` is unreachable in the model). -/
def determineProjectType (repository : GitHubRepository)
    (filePaths : List String) : String :=
  let language := jsToLower ((repository.language).getD "")
  if filePaths.contains "package.json" then
    if filePaths.any (fun p => jsIncludes p "next.config") then "Next.js Application"
    else if filePaths.any (fun p => jsIncludes p "components/" || jsIncludes p "pages/") then
      "React Application"
    else if filePaths.any (fun p => jsIncludes p "server" || jsIncludes p "express") then
      "Node.js Server"
    else "JavaScript/TypeScript Project"
  else if filePaths.any (fun p => p = "requirements.txt" ∨ p = "setup.py") then
    "Python Project"
  else if filePaths.contains "Cargo.toml" then "Rust Project"
  else if filePaths.contains "go.mod" then "Go Project"
  else if filePaths.any (fun p => p = "pom.xml" || jsIncludes p "build.gradle") then
    "Java Project"
  else if language ≠ "" then capitalizeFirst language ++ " Project"
  else "Software Project"

/-- `files.map((f) => f?.path).filter(Boolean)` — a `null`/`undefined`
element and an empty path are dropped. -/
def filePathsOf (files : List (Option RepositoryFile)) : List String :=
  files.filterMap (fun f => f.bind (fun f => if f.path = "" then none else some f.path))

/-- `analyzeSubsystems(repository, files)`.  A missing (`null`/`undefined`)
argument is `none`; a non-array `files` value behaves like `none` (the
source guard `!files || !Array.isArray(files)` takes the same branch).
A thrown exception is `Except.error`; the body of the source `try` is total
in the model, so the outer `catch` never fires. -/
def analyzeSubsystems (repository : Option GitHubRepository)
    (files : Option (List (Option RepositoryFile))) : Except String SubsystemAnalysis :=
  match repository with
  | none => .error "Repository data is required"
  | some repository =>
    match files with
    | none => .ok { subsystems := [], projectType := "Unknown Project" }
    | some files =>
      if files.length = 0 then .ok { subsystems := [], projectType := "Unknown Project" }
      else
        let filePaths := filePathsOf files
        if filePaths.length = 0 then
          .ok { subsystems := [], projectType := "Unknown Project" }
        else
          let detectedSubsystems :=
            (SUBSYSTEM_CONFIGS.filterMap (fun config => detectSubsystem filePaths config)).filter
              (fun s => CONFIDENCE_THRESHOLD ≤ s.confidence)
          .ok { subsystems := deduplicateSubsystems detectedSubsystems,
                projectType := determineProjectType repository filePaths }

/-! ## A model of JavaScript regular-expression matching

The import/manifest scanners use a fixed set of regexes built from
literals, character classes, greedy/lazy repetition, option, alternation
and capturing groups.  `Rx` is that fragment; `rxMatch` is a backtracking
matcher with JavaScript's preference order (greedy tries the longer
alternative first, lazy the shorter, alternation left first), driven by
fuel (every repetition step must consume input, as in JavaScript, where an
empty-width `*` iteration ends the loop). -/

inductive Rx where
  | eps
  | cls (p : Char → Bool)
  | seq (a b : Rx)
  | alt (a b : Rx)
  | opt (a : Rx)
  | star (a : Rx)
  | starL (a : Rx)
  | grp (a : Rx)

def rxMatch : Nat → Rx → List Char → List (List Char) →
    (List Char → List (List Char) → Option (List (List Char) × List Char)) →
    Option (List (List Char) × List Char)
  | 0, _, _, _, _ => none
  | _ + 1, .eps, s, caps, k => k s caps
  | _ + 1, .cls p, s, caps, k =>
    match s with
    | [] => none
    | c :: rest => if p c then k rest caps else none
  | fuel + 1, .seq a b, s, caps, k =>
    rxMatch fuel a s caps (fun s' caps' => rxMatch fuel b s' caps' k)
  | fuel + 1, .alt a b, s, caps, k =>
    (rxMatch fuel a s caps k).orElse (fun _ => rxMatch fuel b s caps k)
  | fuel + 1, .opt a, s, caps, k =>
    (rxMatch fuel a s caps k).orElse (fun _ => k s caps)
  | fuel + 1, .grp a, s, caps, k =>
    rxMatch fuel a s caps (fun s' caps' => k s' (caps' ++ [s.take (s.length - s'.length)]))
  | fuel + 1, .star a, s, caps, k =>
    (rxMatch fuel a s caps (fun s' caps' =>
        if s'.length < s.length then rxMatch fuel (.star a) s' caps' k
        else k s' caps')).orElse (fun _ => k s caps)
  | fuel + 1, .starL a, s, caps, k =>
    (k s caps).orElse (fun _ =>
      rxMatch fuel a s caps (fun s' caps' =>
        if s'.length < s.length then rxMatch fuel (.starL a) s' caps' k
        else none))

/-- A size measure used only to provision fuel. -/
def rxSize : Rx → Nat
  | .eps => 1
  | .cls _ => 1
  | .seq a b => rxSize a + rxSize b + 1
  | .alt a b => rxSize a + rxSize b + 1
  | .opt a => rxSize a + 1
  | .star a => rxSize a + 1
  | .starL a => rxSize a + 1
  | .grp a => rxSize a + 1

/-- Try the regex at the head of `s`: the captured groups (in order of
completion, which for the patterns below is their syntactic order) and the
number of characters consumed.  The fuel bounds backtracking depth; it is
ample for the fixed patterns below (every repetition consumes input). -/
def rxMatchAt (r : Rx) (s : List Char) : Option (List String × Nat) :=
  match rxMatch ((rxSize r + 2) * (s.length + 2)) r s []
      (fun s' caps => some (caps, s')) with
  | some (caps, rest) => some (caps.map String.mk, s.length - rest.length)
  | none => none

/-- `content.matchAll(re)` for a `g`-flagged regex: scan left to right,
resuming after each match.  With `anch` (for an `m`-flagged `^…` pattern)
attempts happen only at line starts. -/
def rxMatchAllGo (r : Rx) (anch : Bool) : Nat → List Char → Bool → List (List String)
  | 0, _, _ => []
  | fuel + 1, s, atStart =>
    match (if anch && !atStart then none else rxMatchAt r s) with
    | some (caps, len) =>
      if 0 < len then
        caps :: rxMatchAllGo r anch fuel (s.drop len)
          ((s.take len).getLast? == some (Char.ofNat 10))
      else
        match s with
        | [] => [caps]
        | c :: rest => caps :: rxMatchAllGo r anch fuel rest (c == Char.ofNat 10)
    | none =>
      match s with
      | [] => []
      | c :: rest => rxMatchAllGo r anch fuel rest (c == Char.ofNat 10)

def rxMatchAll (r : Rx) (content : String) : List (List String) :=
  rxMatchAllGo r false (content.data.length + 1) content.data true

/-- `matchAll` for an `m`-flagged pattern anchored with `^`. -/
def rxMatchAllLines (r : Rx) (content : String) : List (List String) :=
  rxMatchAllGo r true (content.data.length + 1) content.data true

/-- `s.match(re)` (no `g` flag): first match anywhere. -/
def rxMatchFirstGo (r : Rx) : Nat → List Char → Option (List String)
  | 0, _ => none
  | fuel + 1, s =>
    match rxMatchAt r s with
    | some (caps, _) => some caps
    | none =>
      match s with
      | [] => none
      | _ :: rest => rxMatchFirstGo r fuel rest

def rxMatchFirst (r : Rx) (s : String) : Option (List String) :=
  rxMatchFirstGo r (s.data.length + 1) s.data

/-! Pattern-building helpers and the character classes used by the source
regexes (ASCII scope). -/

def rxCat (l : List Rx) : Rx := l.foldr Rx.seq Rx.eps

def rxAlts (l : List Rx) : Rx := l.foldr Rx.alt (Rx.cls (fun _ => false))

def rxLit (s : String) : Rx :=
  s.data.foldr (fun c r => Rx.seq (Rx.cls (fun x => x == c)) r) Rx.eps

def rxPlus (p : Char → Bool) : Rx := .seq (.cls p) (.star (.cls p))

def rxStarC (p : Char → Bool) : Rx := .star (.cls p)

/-- `\w` = `[a-zA-Z0-9_]`. -/
def wordC (c : Char) : Bool :=
  (65 ≤ c.toNat ∧ c.toNat ≤ 90) ∨ (97 ≤ c.toNat ∧ c.toNat ≤ 122) ∨
  (48 ≤ c.toNat ∧ c.toNat ≤ 57) ∨ c = '_'

/-- `[a-zA-Z_]`. -/
def identStartC (c : Char) : Bool :=
  (65 ≤ c.toNat ∧ c.toNat ≤ 90) ∨ (97 ≤ c.toNat ∧ c.toNat ≤ 122) ∨ c = '_'

/-- The quote class `['"\x60]` of the JS/PHP import patterns. -/
def quoteC (c : Char) : Bool :=
  c.toNat = 39 ∨ c.toNat = 34 ∨ c.toNat = 96

def notQuoteC (c : Char) : Bool := !quoteC c

/-- `['"]` (gradle/gemfile patterns, no backtick). -/
def sqDqC (c : Char) : Bool := c.toNat = 39 ∨ c.toNat = 34

def notSqDqC (c : Char) : Bool := !sqDqC c

/-- `.` (any character but a newline; no `s` flag anywhere in the source). -/
def anyButNlC (c : Char) : Bool := c.toNat ≠ 10

/-- `[\s\S]`. -/
def anyC (_ : Char) : Bool := true

def notDqC (c : Char) : Bool := c.toNat ≠ 34

def notLtC (c : Char) : Bool := c ≠ '<'

def notWsC (c : Char) : Bool := !wsChar c

/-! ## Import-statement scanning (`analyzeImportStatements` and helpers) -/

/-- Join with `"/"` (`parts.join("/")`). -/
def joinWithSlash (l : List String) : String :=
  ⟨joinCharsWith '/' (l.map String.data)⟩

/-- `importPath.split("::")[0]`-style split on a two-colon separator. -/
def splitOnColons : List Char → List (List Char)
  | [] => [[]]
  | ':' :: ':' :: rest =>
    [] :: splitOnColons rest
  | c :: rest =>
    match splitOnColons rest with
    | [] => [[]]
    | seg :: segs => (c :: seg) :: segs

/-- The external/internal usage-count maps threaded through the scanners. -/
abbrev NatMap := List (String × Nat)

def stdLibModulesPython : List String :=
  ["os", "sys", "json", "re", "math", "datetime", "collections", "itertools",
   "functools", "operator", "copy", "pickle", "sqlite3", "urllib", "http",
   "email", "html", "xml", "csv", "configparser", "logging", "unittest",
   "threading", "multiprocessing", "subprocess", "shutil", "tempfile",
   "pathlib", "glob", "fnmatch", "random", "hashlib", "hmac", "secrets",
   "typing", "dataclasses", "enum", "abc", "contextlib", "weakref"]

/-- `isPythonStandardLibrary(module)`. -/
def isPythonStandardLibrary (module : String) : Bool :=
  stdLibModulesPython.contains (((jsSplit module '.').head?).getD "")

def stdLibPrefixesGo : List String :=
  ["fmt", "os", "io", "net", "http", "time", "strings", "strconv", "sort",
   "math", "crypto", "encoding", "database", "context", "sync", "regexp",
   "path", "log", "flag", "bufio", "bytes", "errors", "reflect", "runtime",
   "testing", "unsafe", "archive", "compress", "container", "debug", "go",
   "hash", "image", "index", "mime", "plugin", "text", "unicode"]

/-- `isGoStandardLibrary(importPath)`. -/
def isGoStandardLibrary (importPath : String) : Bool :=
  stdLibPrefixesGo.contains (((jsSplit importPath '/').head?).getD "")
  || !jsIncludes importPath "."

def builtInModulesJs : List String :=
  ["fs", "path", "os", "crypto", "http", "https", "url", "querystring",
   "util", "events", "stream", "buffer", "child_process", "cluster", "dgram",
   "dns", "net", "readline", "repl", "tls", "tty", "vm", "zlib"]

/-- `isBuiltInModule(importPath, language)`. -/
def isBuiltInModule (importPath : String) (language : String) : Bool :=
  if language = "js" then builtInModulesJs.contains importPath else false

/-- `isProjectInternal(packageName, filePath)`. -/
def isProjectInternal (packageName filePath : String) : Bool :=
  (jsSplit filePath '/').any (fun part =>
    jsIncludes (jsToLower part) (jsToLower packageName) ||
    jsIncludes (jsToLower packageName) (jsToLower part))

/-- `processImportPath(importPath, externalDeps, internalDeps, language)`;
returns the updated `(externalDeps, internalDeps)`. -/
def processImportPath (importPath : String) (externalDeps internalDeps : NatMap)
    (language : String) : NatMap × NatMap :=
  if jsStartsWith importPath "." || jsStartsWith importPath "/" then
    -- internal dependency
    let cleanPath := stripExtOnce importPath ["js", "jsx", "ts", "tsx"]
    (externalDeps, jsMapIncr internalDeps cleanPath)
  else if !jsIncludes importPath "node:" && !jsIncludes importPath "std/" &&
      !isBuiltInModule importPath language then
    let packageName := ((jsSplit importPath '/').head?).getD ""
    if jsStartsWith packageName "@" then
      let scopedName := joinWithSlash ((jsSplit importPath '/').take 2)
      (jsMapIncr externalDeps scopedName, internalDeps)
    else
      (jsMapIncr externalDeps packageName, internalDeps)
  else (externalDeps, internalDeps)

/-- `processGoImportPath(importPath, externalDeps, internalDeps)`. -/
def processGoImportPath (importPath : String) (externalDeps internalDeps : NatMap) :
    NatMap × NatMap :=
  if jsStartsWith importPath "./" || jsStartsWith importPath "../" then
    (externalDeps, jsMapIncr internalDeps importPath)
  else if !isGoStandardLibrary importPath then
    let parts := jsSplit importPath '/'
    let head := (parts.head?).getD ""
    let packageName :=
      if head = "github.com" ∨ head = "gitlab.com" then joinWithSlash (parts.take 3)
      else if jsIncludes head "." then head
      else importPath
    (jsMapIncr externalDeps packageName, internalDeps)
  else (externalDeps, internalDeps)

/-! The regular expressions of the per-language scanners. -/

/-- `[\w*{}\s,]` of the ES6 import pattern. -/
def importClauseC (c : Char) : Bool :=
  wordC c ∨ c = '*' ∨ c.toNat = 123 ∨ c.toNat = 125 ∨ wsChar c ∨ c = ','

def rxJsEs6Import : Rx :=
  rxCat [rxLit "import", rxPlus wsChar,
    .opt (rxCat [rxPlus importClauseC, rxPlus wsChar, rxLit "from", rxPlus wsChar]),
    .cls quoteC, .grp (rxPlus notQuoteC), .cls quoteC]

def rxJsRequire : Rx :=
  rxCat [rxLit "require", rxStarC wsChar, rxLit "(", rxStarC wsChar,
    .cls quoteC, .grp (rxPlus notQuoteC), .cls quoteC, rxStarC wsChar, rxLit ")"]

def rxJsDynImport : Rx :=
  rxCat [rxLit "import", rxStarC wsChar, rxLit "(", rxStarC wsChar,
    .cls quoteC, .grp (rxPlus notQuoteC), .cls quoteC, rxStarC wsChar, rxLit ")"]

def rxJsAmd : Rx :=
  rxCat [rxLit "define", rxStarC wsChar, rxLit "(", rxStarC wsChar, rxLit "[",
    .starL (.cls anyButNlC), .cls quoteC, .grp (rxPlus notQuoteC), .cls quoteC]

/-- `analyzeJavaScriptImports`. -/
def analyzeJavaScriptImports (file : RepositoryFile)
    (externalDeps internalDeps : NatMap) : NatMap × NatMap :=
  [rxJsEs6Import, rxJsRequire, rxJsDynImport, rxJsAmd].foldl
    (fun m pattern =>
      (rxMatchAll pattern file.content).foldl
        (fun m mt =>
          match mt.head? with
          | none => m
          | some importPath =>
            if importPath = "" then m
            else processImportPath importPath m.1 m.2 "js")
        m)
    (externalDeps, internalDeps)

/-- `[a-zA-Z_][a-zA-Z0-9_]*(?:\.[a-zA-Z_][a-zA-Z0-9_]*)*`. -/
def rxDottedIdent : Rx :=
  rxCat [.cls identStartC, rxStarC wordC,
    .star (rxCat [rxLit ".", .cls identStartC, rxStarC wordC])]

def rxPyFrom : Rx :=
  rxCat [rxLit "from", rxPlus wsChar, .grp rxDottedIdent, rxPlus wsChar, rxLit "import"]

def rxPyImport : Rx :=
  rxCat [rxLit "import", rxPlus wsChar, .grp rxDottedIdent]

/-- `analyzePythonImports` (`rxPyImport` carries the `^…/m` anchoring). -/
def analyzePythonImports (file : RepositoryFile)
    (externalDeps internalDeps : NatMap) : NatMap × NatMap :=
  [(rxPyFrom, false), (rxPyImport, true)].foldl
    (fun m pr =>
      ((if pr.2 then rxMatchAllLines pr.1 file.content
        else rxMatchAll pr.1 file.content)).foldl
        (fun (m : NatMap × NatMap) mt =>
          match mt.head? with
          | none => m
          | some importPath =>
            if importPath = "" then m
            else if jsStartsWith importPath "." then
              (m.1, jsMapIncr m.2 importPath)
            else if !isPythonStandardLibrary importPath then
              let packageName := ((jsSplit importPath '.').head?).getD ""
              (jsMapIncr m.1 packageName, m.2)
            else m)
        m)
    (externalDeps, internalDeps)

def rxGoImportSingle : Rx :=
  rxCat [rxLit "import", rxPlus wsChar, rxLit "\"", .grp (rxPlus notDqC), rxLit "\""]

def rxGoImportBlock : Rx :=
  rxCat [rxLit "import", rxPlus wsChar, rxLit "(", rxStarC wsChar,
    rxLit "\n", .grp (.starL (.cls anyC)), rxLit ")"]

def rxQuotedPiece : Rx :=
  rxCat [rxLit "\"", .grp (rxPlus notDqC), rxLit "\""]

/-- `analyzeGoImports`. -/
def analyzeGoImports (file : RepositoryFile)
    (externalDeps internalDeps : NatMap) : NatMap × NatMap :=
  [rxGoImportSingle, rxGoImportBlock].foldl
    (fun m pattern =>
      (rxMatchAll pattern file.content).foldl
        (fun (m : NatMap × NatMap) mt =>
          match mt.head? with
          | none => m
          | some captured =>
            if jsIncludes captured "\n" then
              (jsSplit captured '\n').foldl
                (fun (m : NatMap × NatMap) line =>
                  match rxMatchFirst rxQuotedPiece (jsTrim line) with
                  | some (ip :: _) => processGoImportPath ip m.1 m.2
                  | _ => m)
                m
            else processGoImportPath captured m.1 m.2)
        m)
    (externalDeps, internalDeps)

/-- `[a-zA-Z0-9_.]` continuation of the Java/C# dotted identifier. -/
def identDotC (c : Char) : Bool := wordC c ∨ c = '.'

def rxJavaImport : Rx :=
  rxCat [rxLit "import", rxPlus wsChar, .opt (rxCat [rxLit "static", rxPlus wsChar]),
    .grp (rxCat [.cls identStartC, rxStarC identDotC]), rxLit ";"]

/-- `analyzeJavaImports`. -/
def analyzeJavaImports (file : RepositoryFile)
    (externalDeps internalDeps : NatMap) : NatMap × NatMap :=
  (rxMatchAll rxJavaImport file.content).foldl
    (fun (m : NatMap × NatMap) mt =>
      match mt.head? with
      | none => m
      | some importPath =>
        if importPath = "" then m
        else
          let parts := jsSplit importPath '.'
          if 2 ≤ parts.length then
            if jsStartsWith importPath "java." || jsStartsWith importPath "javax." then m
            else
              let packageName := ⟨joinCharsWith '.' ((parts.take 2).map String.data)⟩
              if isProjectInternal packageName file.path then
                (m.1, jsMapIncr m.2 packageName)
              else (jsMapIncr m.1 packageName, m.2)
          else m)
    (externalDeps, internalDeps)

/-- `[a-zA-Z_\\]` / `[a-zA-Z0-9_\\]` of the PHP `use` pattern. -/
def phpIdentStartC (c : Char) : Bool := identStartC c ∨ c.toNat = 92

def phpIdentC (c : Char) : Bool := wordC c ∨ c.toNat = 92

def rxPhpUse : Rx :=
  rxCat [rxLit "use", rxPlus wsChar, .grp (rxCat [.cls phpIdentStartC, rxStarC phpIdentC]),
    rxLit ";"]

def rxPhpRequire : Rx :=
  rxCat [rxLit "require", .opt (rxLit "_once"), rxStarC wsChar, rxLit "(",
    rxStarC wsChar, .cls quoteC, .grp (rxPlus notQuoteC), .cls quoteC,
    rxStarC wsChar, rxLit ")"]

def rxPhpInclude : Rx :=
  rxCat [rxLit "include", .opt (rxLit "_once"), rxStarC wsChar, rxLit "(",
    rxStarC wsChar, .cls quoteC, .grp (rxPlus notQuoteC), .cls quoteC,
    rxStarC wsChar, rxLit ")"]

/-- `analyzePHPImports`. -/
def analyzePHPImports (file : RepositoryFile)
    (externalDeps internalDeps : NatMap) : NatMap × NatMap :=
  [rxPhpUse, rxPhpRequire, rxPhpInclude].foldl
    (fun m pattern =>
      (rxMatchAll pattern file.content).foldl
        (fun (m : NatMap × NatMap) mt =>
          match mt.head? with
          | none => m
          | some importPath =>
            if importPath = "" then m
            else if jsIncludes importPath ⟨[Char.ofNat 92]⟩ then
              let packageName :=
                (((splitCharsOn (Char.ofNat 92) importPath.data).map String.mk).head?).getD ""
              (jsMapIncr m.1 packageName, m.2)
            else if jsStartsWith importPath "./" || jsStartsWith importPath "../" then
              (m.1, jsMapIncr m.2 importPath)
            else m)
        m)
    (externalDeps, internalDeps)

def rxRubyRequire : Rx :=
  rxCat [rxLit "require", rxPlus wsChar, .cls quoteC, .grp (rxPlus notQuoteC), .cls quoteC]

def rxRubyRequireRel : Rx :=
  rxCat [rxLit "require_relative", rxPlus wsChar, .cls quoteC,
    .grp (rxPlus notQuoteC), .cls quoteC]

def rxRubyGem : Rx :=
  rxCat [rxLit "gem", rxPlus wsChar, .cls quoteC, .grp (rxPlus notQuoteC), .cls quoteC]

/-- `analyzeRubyImports` (the boolean marks the `require_relative` pattern,
whose source text the original inspects). -/
def analyzeRubyImports (file : RepositoryFile)
    (externalDeps internalDeps : NatMap) : NatMap × NatMap :=
  [(rxRubyRequire, false), (rxRubyRequireRel, true), (rxRubyGem, false)].foldl
    (fun m pr =>
      (rxMatchAll pr.1 file.content).foldl
        (fun (m : NatMap × NatMap) mt =>
          match mt.head? with
          | none => m
          | some importPath =>
            if importPath = "" then m
            else if pr.2 || jsStartsWith importPath "./" then
              (m.1, jsMapIncr m.2 importPath)
            else
              let packageName := ((jsSplit importPath '/').head?).getD ""
              (jsMapIncr m.1 packageName, m.2))
        m)
    (externalDeps, internalDeps)

def rxRustUse : Rx :=
  rxCat [rxLit "use", rxPlus wsChar,
    .grp (rxCat [.cls identStartC, rxStarC wordC,
      .star (rxCat [rxLit "::", .cls identStartC, rxStarC wordC])])]

def rxRustExternCrate : Rx :=
  rxCat [rxLit "extern", rxPlus wsChar, rxLit "crate", rxPlus wsChar,
    .grp (rxCat [.cls identStartC, rxStarC wordC])]

/-- `analyzeRustImports`. -/
def analyzeRustImports (file : RepositoryFile)
    (externalDeps internalDeps : NatMap) : NatMap × NatMap :=
  [rxRustUse, rxRustExternCrate].foldl
    (fun m pattern =>
      (rxMatchAll pattern file.content).foldl
        (fun (m : NatMap × NatMap) mt =>
          match mt.head? with
          | none => m
          | some importPath =>
            if importPath = "" then m
            else
              let rootCrate :=
                (((splitOnColons importPath.data).map String.mk).head?).getD ""
              if rootCrate = "std" ∨ rootCrate = "core" ∨ rootCrate = "alloc" then m
              else if rootCrate = "crate" ∨ rootCrate = "super" ∨ rootCrate = "self" then
                (m.1, jsMapIncr m.2 importPath)
              else (jsMapIncr m.1 rootCrate, m.2))
        m)
    (externalDeps, internalDeps)

def rxDartImport : Rx :=
  rxCat [rxLit "import", rxPlus wsChar, .cls quoteC, .grp (rxPlus notQuoteC), .cls quoteC]

def rxDartExport : Rx :=
  rxCat [rxLit "export", rxPlus wsChar, .cls quoteC, .grp (rxPlus notQuoteC), .cls quoteC]

/-- `analyzeDartImports`. -/
def analyzeDartImports (file : RepositoryFile)
    (externalDeps internalDeps : NatMap) : NatMap × NatMap :=
  [rxDartImport, rxDartExport].foldl
    (fun m pattern =>
      (rxMatchAll pattern file.content).foldl
        (fun (m : NatMap × NatMap) mt =>
          match mt.head? with
          | none => m
          | some importPath =>
            if importPath = "" then m
            else if jsStartsWith importPath "package:" then
              let packageName :=
                (((jsSplit ⟨importPath.data.drop 8⟩ '/').head?).getD "")
              if packageName ≠ "flutter" then (jsMapIncr m.1 packageName, m.2)
              else m
            else if jsStartsWith importPath "dart:" then m
            else (m.1, jsMapIncr m.2 importPath))
        m)
    (externalDeps, internalDeps)

def rxCsUsing : Rx :=
  rxCat [rxLit "using", rxPlus wsChar,
    .grp (rxCat [.cls identStartC, rxStarC identDotC]), rxLit ";"]

/-- `analyzeCSharpImports`. -/
def analyzeCSharpImports (file : RepositoryFile)
    (externalDeps internalDeps : NatMap) : NatMap × NatMap :=
  (rxMatchAll rxCsUsing file.content).foldl
    (fun (m : NatMap × NatMap) mt =>
      match mt.head? with
      | none => m
      | some importPath =>
        if importPath = "" then m
        else
          let parts := jsSplit importPath '.'
          if 1 ≤ parts.length then
            let rootNamespace := (parts.head?).getD ""
            if rootNamespace = "System" ∨ rootNamespace = "Microsoft" then m
            else if isProjectInternal rootNamespace file.path then
              (m.1, jsMapIncr m.2 importPath)
            else (jsMapIncr m.1 rootNamespace, m.2)
          else m)
    (externalDeps, internalDeps)

/-- Extensions of the code-file filter `/\.(js|jsx|ts|tsx|py|go|java|php|rb|rs|dart|swift|kt|scala|cs)$/`. -/
def importCodeExts : List String :=
  ["js", "jsx", "ts", "tsx", "py", "go", "java", "php", "rb", "rs", "dart",
   "swift", "kt", "scala", "cs"]

def depCountLe (a b : DependencyInsight) : Bool := decide (b.count ≤ a.count)

/-- `analyzeImportStatements(files)`. -/
def analyzeImportStatements (files : List RepositoryFile) : List DependencyInsight :=
  let codeFiles := files.filter
    (fun file => importCodeExts.any (fun ext => jsEndsWith file.path ("." ++ ext)))
  let maps := codeFiles.foldl
    (fun (m : NatMap × NatMap) file =>
      let extension := jsToLower (lastPiece file.path '.')
      if ["js", "jsx", "ts", "tsx"].contains extension then
        analyzeJavaScriptImports file m.1 m.2
      else if extension = "py" then analyzePythonImports file m.1 m.2
      else if extension = "go" then analyzeGoImports file m.1 m.2
      else if extension = "java" then analyzeJavaImports file m.1 m.2
      else if extension = "php" then analyzePHPImports file m.1 m.2
      else if extension = "rb" then analyzeRubyImports file m.1 m.2
      else if extension = "rs" then analyzeRustImports file m.1 m.2
      else if extension = "dart" then analyzeDartImports file m.1 m.2
      else if extension = "cs" then analyzeCSharpImports file m.1 m.2
      else m)
    ([], [])
  let external :=
    (jsSortBy depCountLe
      (maps.1.map (fun e => DependencyInsight.mk e.1 .external e.2))).take 15
  let internal :=
    (jsSortBy depCountLe
      (maps.2.map (fun e => DependencyInsight.mk e.1 .internal e.2))).take 10
  external ++ internal

/-! ## Manifest parsing (`parseManifestDependencies`) -/

def manifestNames : List String :=
  ["package.json", "package-lock.json", "yarn.lock", "pnpm-lock.yaml",
   "requirements.txt", "pyproject.toml", "setup.py", "pipfile", "pipfile.lock",
   "pom.xml", "build.gradle", "build.gradle.kts", "gradle.properties",
   "packages.config", "directory.build.props", "gemfile", "gemfile.lock",
   "go.mod", "go.sum", "cargo.toml", "cargo.lock", "composer.json",
   "composer.lock", "pubspec.yaml", "pubspec.lock", "package.swift",
   "cmakelists.txt"]

/-- The manifest-file filter of `parseManifestDependencies`. -/
def isManifestFile (file : RepositoryFile) : Bool :=
  let filename := lastPiece file.path '/'
  let lowercaseFilename := jsToLower filename
  manifestNames.contains lowercaseFilename
  || jsEndsWith filename ".csproj" || jsEndsWith filename ".vbproj"
  || jsEndsWith filename ".fsproj"
  || (jsIncludes filename "requirements" && jsEndsWith filename ".txt")

/-- Names of one `package.json` section (empty unless the field is truthy;
`Object.entries` over strings/arrays enumerates index keys). -/
def depsFromSection (pkg : Json) (sectionKey : String) (weight : Nat) :
    List DependencyInsight :=
  if jsonTruthy (jsonGet pkg sectionKey) then
    (jsonEntryKeys (jsonGet pkg sectionKey)).map (fun name => ⟨name, .external, weight⟩)
  else []

def parsePackageJson (file : RepositoryFile) : List DependencyInsight :=
  match jsonParse file.content with
  | .error _ => []
  | .ok pkg =>
    depsFromSection pkg "dependencies" 8 ++ depsFromSection pkg "devDependencies" 5
      ++ depsFromSection pkg "peerDependencies" 3
      ++ depsFromSection pkg "optionalDependencies" 2

/-- `[a-zA-Z0-9_.-]`. -/
def reqNameC (c : Char) : Bool := wordC c ∨ c = '.' ∨ c = '-'

def parseRequirementsTxt (file : RepositoryFile) : List DependencyInsight :=
  (jsSplit file.content '\n').foldl
    (fun acc line =>
      let cleaned := jsTrim line
      if cleaned ≠ "" && !jsStartsWith cleaned "#" && !jsStartsWith cleaned "-" &&
          !jsStartsWith cleaned "git+" then
        -- `cleaned.match(/^([a-zA-Z0-9_.-]+)/)`
        let tok := cleaned.data.takeWhile reqNameC
        if tok ≠ [] then acc ++ [⟨⟨tok⟩, .external, 7⟩] else acc
      else acc)
    []

/-- `cleaned.match(/^([a-zA-Z0-9_.-]+)\s*=/)`: the leading key of a
key/value line (maximal leading run, optional blanks, then `=`). -/
def tomlKeyMatch (s : String) (keyC : Char → Bool) : Option String :=
  let tok := s.data.takeWhile keyC
  if tok = [] then none
  else
    match (s.data.drop tok.length).dropWhile wsChar with
    | '=' :: _ => some ⟨tok⟩
    | _ => none

def parsePyprojectToml (file : RepositoryFile) : List DependencyInsight :=
  let st := (jsSplit file.content '\n').foldl
    (fun (st : Bool × Bool × List DependencyInsight) line =>
      let inDependencies := st.1
      let inDevDependencies := st.2.1
      let acc := st.2.2
      let cleaned := jsTrim line
      if cleaned = "[tool.poetry.dependencies]" ∨ cleaned = "[project.dependencies]" ∨
          cleaned = "[build-system.requires]" then (true, false, acc)
      else if cleaned = "[tool.poetry.group.dev.dependencies]" ∨
          cleaned = "[tool.poetry.dev-dependencies]" then (false, true, acc)
      else if jsStartsWith cleaned "[" ∧ (inDependencies ∨ inDevDependencies) then
        (false, false, acc)
      else if (inDependencies ∨ inDevDependencies) ∧ jsIncludes cleaned "=" then
        match tomlKeyMatch cleaned reqNameC with
        | some key =>
          if key ≠ "python" then
            (inDependencies, inDevDependencies,
             acc ++ [⟨key, .external, if inDevDependencies then 4 else 7⟩])
          else (inDependencies, inDevDependencies, acc)
        | none => (inDependencies, inDevDependencies, acc)
      else (inDependencies, inDevDependencies, acc))
    (false, false, [])
  st.2.2

def parsePipfile (file : RepositoryFile) : List DependencyInsight :=
  let st := (jsSplit file.content '\n').foldl
    (fun (st : Bool × Bool × List DependencyInsight) line =>
      let inPackages := st.1
      let inDevPackages := st.2.1
      let acc := st.2.2
      let cleaned := jsTrim line
      if cleaned = "[packages]" then (true, false, acc)
      else if cleaned = "[dev-packages]" then (false, true, acc)
      else if jsStartsWith cleaned "[" ∧ (inPackages ∨ inDevPackages) then
        (false, false, acc)
      else if (inPackages ∨ inDevPackages) ∧ jsIncludes cleaned "=" then
        match tomlKeyMatch cleaned reqNameC with
        | some key =>
          (inPackages, inDevPackages,
           acc ++ [⟨key, .external, if inDevPackages then 4 else 7⟩])
        | none => (inPackages, inDevPackages, acc)
      else (inPackages, inDevPackages, acc))
    (false, false, [])
  st.2.2

def rxPomDependency : Rx :=
  rxCat [rxLit "<groupId>", .grp (rxPlus notLtC), rxLit "</groupId>",
    rxStarC wsChar, rxLit "<artifactId>", .grp (rxPlus notLtC), rxLit "</artifactId>"]

def parsePomXml (file : RepositoryFile) : List DependencyInsight :=
  (rxMatchAll rxPomDependency file.content).foldl
    (fun acc mt =>
      match mt with
      | groupId :: artifactId :: _ =>
        acc ++ [⟨groupId ++ ":" ++ artifactId, .external, 6⟩]
      | _ => acc)
    []

def rxGradleKeyword : Rx :=
  rxAlts [rxLit "implementation", rxLit "api", rxLit "compile",
    rxLit "testImplementation", rxLit "androidTestImplementation"]

def rxGradleDep1 : Rx :=
  rxCat [rxGradleKeyword, rxPlus wsChar, .cls sqDqC, .grp (rxPlus notSqDqC), .cls sqDqC]

def rxGradleDep2 : Rx :=
  rxCat [rxGradleKeyword, rxStarC wsChar, rxLit "(", rxStarC wsChar,
    .cls sqDqC, .grp (rxPlus notSqDqC), .cls sqDqC]

def parseBuildGradle (file : RepositoryFile) : List DependencyInsight :=
  (rxMatchAll rxGradleDep1 file.content ++ rxMatchAll rxGradleDep2 file.content).foldl
    (fun acc mt =>
      match mt.head? with
      | none => acc
      | some depString =>
        if depString ≠ "" ∧ jsIncludes depString ":" then
          let parts := jsSplit depString ':'
          if 2 ≤ parts.length then
            acc ++ [⟨(parts.head?).getD "" ++ ":" ++ ((parts.drop 1).head?).getD "",
                     .external, 6⟩]
          else acc
        else acc)
    []

def rxGoModRequire : Rx :=
  rxCat [rxLit "require", rxPlus wsChar, .grp (rxPlus notWsC)]

def parseGoMod (file : RepositoryFile) : List DependencyInsight :=
  let st := (jsSplit file.content '\n').foldl
    (fun (st : Bool × List DependencyInsight) line =>
      let inRequire := st.1
      let acc := st.2
      let cleaned := jsTrim line
      if cleaned = "require (" then (true, acc)
      else if cleaned = ")" ∧ inRequire then (false, acc)
      else if jsStartsWith cleaned "require " ∧ !jsIncludes cleaned "(" then
        match rxMatchFirst rxGoModRequire cleaned with
        | some (name :: _) =>
          if name ≠ "" then (inRequire, acc ++ [⟨name, .external, 6⟩]) else (inRequire, acc)
        | _ => (inRequire, acc)
      else if inRequire ∧ cleaned ≠ "" ∧ !jsStartsWith cleaned "//" then
        -- `cleaned.match(/^([^\s]+)/)`
        let tok : List Char := cleaned.data.takeWhile notWsC
        if tok ≠ [] ∧ !jsIncludes ⟨tok⟩ "(" ∧ !jsIncludes ⟨tok⟩ ")" then
          (inRequire, acc ++ [⟨⟨tok⟩, .external, 6⟩])
        else (inRequire, acc)
      else (inRequire, acc))
    (false, [])
  st.2

/-- `[a-zA-Z0-9_-]` (the Cargo key class has no dot). -/
def cargoKeyC (c : Char) : Bool := wordC c ∨ c = '-'

def parseCargoToml (file : RepositoryFile) : List DependencyInsight :=
  let st := (jsSplit file.content '\n').foldl
    (fun (st : Bool × Bool × List DependencyInsight) line =>
      let inDependencies := st.1
      let inDevDependencies := st.2.1
      let acc := st.2.2
      let cleaned := jsTrim line
      if cleaned = "[dependencies]" then (true, false, acc)
      else if cleaned = "[dev-dependencies]" then (false, true, acc)
      else if jsStartsWith cleaned "[" ∧ (inDependencies ∨ inDevDependencies) then
        (false, false, acc)
      else if (inDependencies ∨ inDevDependencies) ∧ jsIncludes cleaned "=" then
        match tomlKeyMatch cleaned cargoKeyC with
        | some key =>
          (inDependencies, inDevDependencies,
           acc ++ [⟨key, .external, if inDevDependencies then 4 else 7⟩])
        | none => (inDependencies, inDevDependencies, acc)
      else (inDependencies, inDevDependencies, acc))
    (false, false, [])
  st.2.2

def parseComposerJson (file : RepositoryFile) : List DependencyInsight :=
  match jsonParse file.content with
  | .error _ => []
  | .ok composer =>
    (if jsonTruthy (jsonGet composer "require") then
      (jsonEntryKeys (jsonGet composer "require")).foldl
        (fun acc name => if name ≠ "php" then acc ++ [⟨name, .external, 7⟩] else acc) []
     else [])
    ++
    (if jsonTruthy (jsonGet composer "require-dev") then
      (jsonEntryKeys (jsonGet composer "require-dev")).map
        (fun name => DependencyInsight.mk name .external 4)
     else [])

def rxGemfileGem : Rx :=
  rxCat [rxLit "gem", rxPlus wsChar, .cls sqDqC, .grp (rxPlus notSqDqC), .cls sqDqC]

def parseGemfile (file : RepositoryFile) : List DependencyInsight :=
  (jsSplit file.content '\n').foldl
    (fun acc line =>
      let cleaned := jsTrim line
      match rxMatchFirst rxGemfileGem cleaned with
      | some (name :: _) => if name ≠ "" then acc ++ [⟨name, .external, 6⟩] else acc
      | _ => acc)
    []

def parsePubspecYaml (file : RepositoryFile) : List DependencyInsight :=
  let st := (jsSplit file.content '\n').foldl
    (fun (st : Bool × Bool × List DependencyInsight) line =>
      let inDependencies := st.1
      let inDevDependencies := st.2.1
      let acc := st.2.2
      let cleaned := jsTrim line
      if cleaned = "dependencies:" then (true, false, acc)
      else if cleaned = "dev_dependencies:" then (false, true, acc)
      else if cleaned ≠ "" ∧ !jsStartsWith cleaned " " ∧ jsEndsWith cleaned ":" ∧
          (inDependencies ∨ inDevDependencies) then
        (false, false, acc)
      else if (inDependencies ∨ inDevDependencies) ∧ jsIncludes cleaned ":" then
        -- `cleaned.match(/^([a-zA-Z0-9_]+):/)`
        let tok := cleaned.data.takeWhile wordC
        match (if tok ≠ [] then
            match cleaned.data.drop tok.length with
            | ':' :: _ => some (String.mk tok)
            | _ => none
          else none) with
        | some key =>
          if key ≠ "flutter" ∧ key ≠ "sdk" then
            (inDependencies, inDevDependencies,
             acc ++ [⟨key, .external, if inDevDependencies then 4 else 7⟩])
          else (inDependencies, inDevDependencies, acc)
        | none => (inDependencies, inDevDependencies, acc)
      else (inDependencies, inDevDependencies, acc))
    (false, false, [])
  st.2.2

def rxPackageReference : Rx :=
  rxCat [rxLit "<PackageReference", rxPlus wsChar, rxLit "Include=\"",
    .grp (rxPlus notDqC), rxLit "\""]

def parseCsproj (file : RepositoryFile) : List DependencyInsight :=
  (rxMatchAll rxPackageReference file.content).foldl
    (fun acc mt =>
      match mt.head? with
      | some name => if name ≠ "" then acc ++ [⟨name, .external, 6⟩] else acc
      | none => acc)
    []

/-- The per-file dispatch of `parseManifestDependencies` (one manifest
file's contribution; a parse failure contributes nothing, per the per-file
`catch`). -/
def parseManifestFile (file : RepositoryFile) : List DependencyInsight :=
  let filename := lastPiece file.path '/'
  let lowercaseFilename := jsToLower filename
  if filename = "package.json" then parsePackageJson file
  else if jsIncludes lowercaseFilename "requirements" ∧ jsEndsWith filename ".txt" then
    parseRequirementsTxt file
  else if lowercaseFilename = "pyproject.toml" then parsePyprojectToml file
  else if lowercaseFilename = "pipfile" then parsePipfile file
  else if filename = "pom.xml" then parsePomXml file
  else if jsIncludes lowercaseFilename "build.gradle" then parseBuildGradle file
  else if lowercaseFilename = "go.mod" then parseGoMod file
  else if lowercaseFilename = "cargo.toml" then parseCargoToml file
  else if lowercaseFilename = "composer.json" then parseComposerJson file
  else if lowercaseFilename = "gemfile" then parseGemfile file
  else if lowercaseFilename = "pubspec.yaml" then parsePubspecYaml file
  else if jsEndsWith filename ".csproj" ∨ jsEndsWith filename ".vbproj" ∨
      jsEndsWith filename ".fsproj" then parseCsproj file
  else []

/-- `parseManifestDependencies(files)`. -/
def parseManifestDependencies (files : List RepositoryFile) : List DependencyInsight :=
  (files.filter isManifestFile).foldl (fun acc file => acc ++ parseManifestFile file) []

/-! ## Dependency merging and ranking (`analyzeDependencies`, `analyzeInsights`) -/

/-- The name-keyed merge of `analyzeDependencies` (lines 46–60): manifest
entries are inserted first; an import entry is added only when its name is
absent, otherwise the existing entry's count is raised to the maximum of
the two. -/
def combineDeps (manifestDeps importDeps : List DependencyInsight) :
    List (String × DependencyInsight) :=
  let combined := manifestDeps.foldl (fun m dep => jsMapSet m dep.name dep) []
  importDeps.foldl
    (fun m dep =>
      match jsMapGet m dep.name with
      | none => jsMapSet m dep.name dep
      | some existing =>
        jsMapSet m dep.name { existing with count := max existing.count dep.count })
    combined

/-- `analyzeDependencies(files)`. -/
def analyzeDependencies (files : List RepositoryFile) : List DependencyInsight :=
  ((jsSortBy depCountLe ((combineDeps (parseManifestDependencies files)
      (analyzeImportStatements files)).map Prod.snd)).take 20)

/-- `analyzeInsights(files)`. -/
def analyzeInsights (files : List RepositoryFile) : InsightsData :=
  { dependencies := analyzeDependencies files
    testCoverage := analyzeTestCoverage files }

/-! ## Claims about the test coverage estimator (C3, C8) -/

/-- The percentage formula as the specification words it:
`round(100 * testFileCount / max(sourceFileCount, 1))`, clamped to 100. -/
def specC3Percentage (testFileCount sourceFileCount : Nat) : Nat :=
  min (jsRoundDiv (testFileCount * 100) (max sourceFileCount 1)) 100

/-- C3 counterexample: with a single test file and no source files the code
returns `percentage = 0`, while the spec's formula with `max(totalFiles,1)`
yields 100. -/
theorem C3_counterexample :
    (analyzeTestCoverage [⟨"a.test.js", "", 0, "javascript"⟩]).testFiles.length = 1 ∧
    (analyzeTestCoverage [⟨"a.test.js", "", 0, "javascript"⟩]).totalFiles = 0 ∧
    (analyzeTestCoverage [⟨"a.test.js", "", 0, "javascript"⟩]).percentage = 0 ∧
    specC3Percentage 1 0 = 100 := by
  refine ⟨?_, ?_, ?_, ?_⟩ <;> decide

/-- C3 (amended): `percentage` equals
`min(round(100 * testFileCount / totalFiles), 100)` when there is at least
one source file and is hard-coded to 0 otherwise (the guard is on
`totalFiles > 0`, not `max(totalFiles, 1)`); it is always at most 100. -/
theorem C3_amended (files : List RepositoryFile) :
    (analyzeTestCoverage files).percentage =
      (if 0 < (analyzeTestCoverage files).totalFiles then
        min (jsRoundDiv ((analyzeTestCoverage files).testFiles.length * 100)
          (analyzeTestCoverage files).totalFiles) 100
       else 0) ∧
    (analyzeTestCoverage files).percentage ≤ 100 := by
  have h1 : (analyzeTestCoverage files).percentage =
      (if 0 < (analyzeTestCoverage files).totalFiles then
        min (jsRoundDiv ((analyzeTestCoverage files).testFiles.length * 100)
          (analyzeTestCoverage files).totalFiles) 100
       else 0) := by
    show (analyzeTestCoverage files).percentage = _
    unfold analyzeTestCoverage
    simp only [List.length_map]
  refine ⟨h1, ?_⟩
  rw [h1]
  split
  · exact Nat.min_le_right _ _
  · exact Nat.zero_le _

/-- Whether some path segment is a conventional test-directory name — the
classification C8 asserts. -/
def specHasTestDirSegment (path : String) : Bool :=
  (jsSplit (jsToLower path) '/').any
    (fun seg => seg = "test" ∨ seg = "tests" ∨ seg = "__tests__")

/-- C8 counterexample: `test/app.js` has first path segment `test`, yet it
is not classified as a test file (the directory patterns are the substrings
`"/tests/"`/`"/test/"`, which require a slash before the segment, and
repository paths have no leading slash). -/
theorem C8_counterexample :
    specHasTestDirSegment "test/app.js" = true ∧
    (analyzeTestCoverage [⟨"test/app.js", "", 0, "javascript"⟩]).testFiles = [] := by
  refine ⟨?_, ?_⟩ <;> decide

/-- C8 (amended): directory-based test classification holds exactly for the
substrings `"__tests__"`, `"/tests/"`, `"/test/"` of the lower-cased path;
any file containing one of them is reported in `testFiles` (a first-segment
`test`/`tests` directory is not covered, as the counterexample shows). -/
theorem C8_amended (files : List RepositoryFile) (f : RepositoryFile) (hf : f ∈ files)
    (h : jsIncludes (jsToLower f.path) "__tests__" = true ∨
         jsIncludes (jsToLower f.path) "/tests/" = true ∨
         jsIncludes (jsToLower f.path) "/test/" = true) :
    f.path ∈ (analyzeTestCoverage files).testFiles := by
  have hpred : testFilePred f = true := by
    unfold testFilePred
    rcases h with h | h | h <;> simp [h]
  show f.path ∈ (analyzeTestCoverage files).testFiles
  unfold analyzeTestCoverage
  simp only [List.mem_map]
  exact ⟨f, List.mem_filter.mpr ⟨hf, hpred⟩, rfl⟩

/-- Witness for C8 (amended) at a concrete input. -/
theorem C8_amended_witness :
    (jsIncludes (jsToLower "src/test/a.js") "/test/" = true) ∧
    "src/test/a.js" ∈ (analyzeTestCoverage [⟨"src/test/a.js", "", 0, "javascript"⟩]).testFiles :=
  ⟨by decide,
   C8_amended [⟨"src/test/a.js", "", 0, "javascript"⟩] ⟨"src/test/a.js", "", 0, "javascript"⟩
     (List.mem_singleton.mpr rfl) (Or.inr (Or.inr (by decide)))⟩

/-! ## Claims about the subsystem classifier entry point (C1, C9) -/

/-- C1 counterexample: a missing repository descriptor makes
`analyzeSubsystems` throw (`throw new Error("Repository data is required")`
precedes the `try` block), rather than return the empty analysis. -/
theorem C1_counterexample :
    analyzeSubsystems none (some [some ⟨"src/app.ts", "", 0, "typescript"⟩]) =
      Except.error "Repository data is required" := rfl

/-- C1 (amended): for a present repository descriptor `analyzeSubsystems`
never throws, and a missing, empty, or all-invalid file list yields
`{ subsystems: [], projectType: "Unknown Project" }`; a missing repository
descriptor, however, throws. -/
theorem C1_amended (r : GitHubRepository) (files : Option (List (Option RepositoryFile))) :
    (∃ a, analyzeSubsystems (some r) files = Except.ok a) ∧
    ((files = none ∨ files = some [] ∨ (∃ l, files = some l ∧ filePathsOf l = [])) →
      analyzeSubsystems (some r) files = Except.ok ⟨[], "Unknown Project"⟩) := by
  constructor
  · cases files with
    | none => exact ⟨_, rfl⟩
    | some l =>
      show ∃ a, (if l.length = 0 then _ else _) = Except.ok a
      by_cases h1 : l.length = 0
      · rw [if_pos h1]; exact ⟨_, rfl⟩
      · rw [if_neg h1]
        by_cases h2 : (filePathsOf l).length = 0
        · simp only [analyzeSubsystems, h2, if_pos]
          exact ⟨_, rfl⟩
        · simp only [analyzeSubsystems, h2, if_neg]
          exact ⟨_, rfl⟩
  · intro h
    rcases h with h | h | ⟨l, hl, hp⟩
    · subst h; rfl
    · subst h; rfl
    · subst hl
      show (if l.length = 0 then _ else _) = _
      by_cases h1 : l.length = 0
      · rw [if_pos h1]
      · rw [if_neg h1]
        have h2 : (filePathsOf l).length = 0 := by rw [hp]; rfl
        simp only [h2, if_pos]

/-- Witness for C1 (amended) at a concrete input. -/
theorem C1_witness :
    analyzeSubsystems (some ⟨"repo", some "TypeScript"⟩) none =
      Except.ok ⟨[], "Unknown Project"⟩ :=
  (C1_amended ⟨"repo", some "TypeScript"⟩ none).2 (Or.inl rfl)

/-! ## C10: `buildProjectTree` reorders the caller's array but modifies no file -/

/-- C10: the file array after `buildProjectTree`'s in-place
`files.sort((a, b) => a.path.localeCompare(b.path))` (that is,
`sortedBuildFiles files`, the array `buildProjectTree` traverses) is a
permutation of the caller's array — every `RepositoryFile` record survives
unchanged in every field, with multiplicity — and is sorted by path. -/
theorem C10_sort_in_place (files : List RepositoryFile) :
    (sortedBuildFiles files).Perm files ∧
    (sortedBuildFiles files).Pairwise (fun a b => localeLe a.path b.path = true) ∧
    (∀ f ∈ sortedBuildFiles files, f ∈ files) := by
  have hperm : (sortedBuildFiles files).Perm files := jsSortBy_perm _ files
  refine ⟨hperm, ?_, fun f hf => hperm.mem_iff.mp hf⟩
  exact jsSortBy_pairwise (fun (a b : RepositoryFile) => localeLe a.path b.path)
    (fun a b c hab hbc => localeLe_trans hab hbc)
    (fun a b => localeLe_total a.path b.path) files

/-! ## C7: the dependency list is capped at 20 and sorted by weight -/

theorem depCountLe_trans (a b c : DependencyInsight)
    (hab : depCountLe a b = true) (hbc : depCountLe b c = true) :
    depCountLe a c = true := by
  simp only [depCountLe, decide_eq_true_eq] at *
  omega

theorem depCountLe_total (a b : DependencyInsight) :
    (depCountLe a b || depCountLe b a) = true := by
  simp only [depCountLe, decide_eq_true_eq, Bool.or_eq_true]
  omega

/-- C7: `analyzeInsights(files).dependencies` has at most 20 entries, in
non-increasing order of `count`. -/
theorem C7_cap_and_sorted (files : List RepositoryFile) :
    (analyzeInsights files).dependencies.length ≤ 20 ∧
    (analyzeInsights files).dependencies.Pairwise (fun a b => b.count ≤ a.count) := by
  constructor
  · exact List.length_take_le _ _
  · have hs :
        (jsSortBy depCountLe ((combineDeps (parseManifestDependencies files)
          (analyzeImportStatements files)).map Prod.snd)).Pairwise
          (fun a b => depCountLe a b = true) :=
      jsSortBy_pairwise depCountLe depCountLe_trans depCountLe_total _
    have ht := List.Pairwise.sublist (List.take_sublist 20 _) hs
    exact ht.imp (fun h => by simpa [depCountLe, decide_eq_true_eq] using h)

/-! ## C2: local import references are recorded as internal dependencies,
and the returned list can contain them -/

/-- C2 counterexample: a single Dart file importing `'./x.dart'` — the
captured reference starts with `.`, yet it is not discarded: it is counted
as an internal dependency and `analyzeInsights` returns it (typed
`internal`) in the dependency list. -/
theorem C2_counterexample :
    jsStartsWith "./x.dart" "." = true ∧
    (analyzeInsights [⟨"a.dart", "import './x.dart';", 1, "dart"⟩]).dependencies =
      [⟨"./x.dart", .internal, 1⟩] := by
  refine ⟨by decide, ?_⟩
  decide

/-- C2 (amended): a captured reference with a leading `.` or `/` is
excluded from the external map but recorded (extension-stripped) in the
internal map — so the engine reports internal entries alongside external
package identifiers rather than discarding them. -/
theorem C2_amended (importPath : String) (externalDeps internalDeps : NatMap)
    (language : String)
    (h : jsStartsWith importPath "." = true ∨ jsStartsWith importPath "/" = true) :
    (processImportPath importPath externalDeps internalDeps language).1 = externalDeps ∧
    (processImportPath importPath externalDeps internalDeps language).2 =
      jsMapIncr internalDeps (stripExtOnce importPath ["js", "jsx", "ts", "tsx"]) := by
  unfold processImportPath
  rcases h with h | h <;> simp [h]

/-- Witness for C2 (amended) at a concrete input. -/
theorem C2_amended_witness :
    jsStartsWith "./foo" "." = true ∧
    (processImportPath "./foo" [] [] "js").1 = [] ∧
    (processImportPath "./foo" [] [] "js").2 = [("./foo", 1)] :=
  ⟨by decide, (C2_amended "./foo" [] [] "js" (Or.inl (by decide))).1,
   ((C2_amended "./foo" [] [] "js" (Or.inl (by decide))).2).trans (by decide)⟩

/-! ## C6: the manifest/import merge of `analyzeDependencies` -/

theorem find?_map_replace {α : Type} (m : List (String × α)) (k k' : String) (v : α)
    (h : k' ≠ k) :
    (m.map (fun e => if e.1 == k then (k, v) else e)).find? (fun e => e.1 == k') =
      m.find? (fun e => e.1 == k') := by
  induction m with
  | nil => rfl
  | cons e m ih =>
    simp only [List.map_cons]
    by_cases he : e.1 = k
    · have h1 : (e.1 == k) = true := by simp [he]
      have h2 : ((k : String) == k') = false := by simp; exact fun hh => h hh.symm
      have h3 : (e.1 == k') = false := by simp [he]; exact fun hh => h hh.symm
      simp only [h1, if_true, List.find?_cons, h2, h3]
      exact ih
    · have h1 : (e.1 == k) = false := by simp [he]
      simp only [h1, Bool.false_eq_true, if_false, List.find?_cons]
      by_cases hp : e.1 = k'
      · have hp1 : (e.1 == k') = true := by simp [hp]
        simp only [hp1]
      · have hp1 : (e.1 == k') = false := by simp [hp]
        simp only [hp1]
        exact ih

theorem find?_map_replace_self {α : Type} (m : List (String × α)) (k : String) (v : α) :
    (m.map (fun e => if e.1 == k then (k, v) else e)).find? (fun e => e.1 == k) =
      (if m.any (fun e => e.1 == k) then some (k, v) else none) := by
  induction m with
  | nil => rfl
  | cons e m ih =>
    simp only [List.map_cons, List.any_cons]
    by_cases he : e.1 = k
    · have h1 : (e.1 == k) = true := by simp [he]
      have hkk : ((k : String) == k) = true := by simp
      simp [h1, List.find?_cons, hkk]
    · have h1 : (e.1 == k) = false := by simp [he]
      simp only [h1, Bool.false_eq_true, if_false, List.find?_cons, Bool.false_or]
      exact ih

theorem jsMapGet_set {α : Type} (m : List (String × α)) (k k' : String) (v : α) :
    jsMapGet (jsMapSet m k v) k' = if k' = k then some v else jsMapGet m k' := by
  unfold jsMapSet jsMapGet
  by_cases hany : m.any (fun e => e.1 == k) = true
  · rw [if_pos hany]
    by_cases hk : k' = k
    · subst hk
      rw [find?_map_replace_self, if_pos hany, if_pos rfl]
      rfl
    · rw [find?_map_replace m k k' v hk, if_neg hk]
  · rw [if_neg hany]
    have hnone : m.find? (fun e => e.1 == k) = none := by
      rw [List.find?_eq_none]
      intro x hx hpx
      exact hany (List.any_eq_true.mpr ⟨x, hx, hpx⟩)
    by_cases hk : k' = k
    · rw [hk, if_pos rfl, List.find?_append, hnone]
      have hkk : ((k : String) == k) = true := by simp
      simp [List.find?_cons, hkk]
    · rw [List.find?_append]
      have h2 : ((k : String) == k') = false := by simp; exact fun hh => hk hh.symm
      rw [if_neg hk]
      simp only [List.find?_cons, h2, List.find?_nil, Option.or_none]

/-- Running maximum, `existing.count = Math.max(existing.count, dep.count)`
accumulated left to right. -/
def maxFoldCount (base : Nat) (l : List DependencyInsight) : Nat :=
  l.foldl (fun acc d => max acc d.count) base

/-- The merged entry for one name, as the specification words it: the last
manifest entry for the name, if any, with its weight raised to the maximum
of all import weights for that name (never their sum); otherwise the
first import entry with the same maximum; otherwise nothing. -/
def specMergedLookup (manifestDeps importDeps : List DependencyInsight)
    (name : String) : Option DependencyInsight :=
  match (manifestDeps.filter (fun d => d.name == name)).getLast? with
  | some m =>
    some { m with count :=
      maxFoldCount m.count (importDeps.filter (fun d => d.name == name)) }
  | none =>
    match importDeps.filter (fun d => d.name == name) with
    | [] => none
    | i :: rest => some { i with count := maxFoldCount i.count rest }

theorem manifestFold_get (l : List DependencyInsight)
    (m : List (String × DependencyInsight)) (name : String) :
    jsMapGet (l.foldl (fun m dep => jsMapSet m dep.name dep) m) name =
      (match (l.filter (fun d => d.name == name)).getLast? with
       | some d => some d
       | none => jsMapGet m name) := by
  induction l generalizing m with
  | nil => rfl
  | cons d l ih =>
    simp only [List.foldl_cons, List.filter_cons]
    by_cases hd : d.name = name
    · have hb : (d.name == name) = true := by simp [hd]
      rw [hb]
      simp only [if_true]
      rw [ih]
      cases hf : (l.filter (fun d => d.name == name)) with
      | nil =>
        simp only [hf, List.getLast?_singleton]
        rw [jsMapGet_set, if_pos hd.symm]
        rfl
      | cons x xs =>
        simp only [hf, List.getLast?_cons_cons]
        cases hg : (x :: xs).getLast? with
        | none => simp at hg
        | some y => rfl
    · have hb : (d.name == name) = false := by simp [hd]
      rw [hb]
      simp only [Bool.false_eq_true, if_false]
      rw [ih]
      cases hg : (l.filter (fun d => d.name == name)).getLast? with
      | none =>
        simp only []
        rw [jsMapGet_set, if_neg (fun hh => hd hh.symm)]
      | some y => rfl

theorem importFold_get (l : List DependencyInsight)
    (m : List (String × DependencyInsight)) (name : String) :
    jsMapGet (l.foldl
      (fun m dep =>
        match jsMapGet m dep.name with
        | none => jsMapSet m dep.name dep
        | some existing =>
          jsMapSet m dep.name { existing with count := max existing.count dep.count })
      m) name =
      (match jsMapGet m name with
       | some e =>
         some { e with count := maxFoldCount e.count (l.filter (fun d => d.name == name)) }
       | none =>
         match l.filter (fun d => d.name == name) with
         | [] => none
         | i :: rest => some { i with count := maxFoldCount i.count rest }) := by
  induction l generalizing m with
  | nil =>
    rw [List.foldl_nil]
    cases h : jsMapGet m name with
    | none => simp [h]
    | some e => simp [h, maxFoldCount]
  | cons d l ih =>
    simp only [List.foldl_cons, List.filter_cons]
    by_cases hd : d.name = name
    · have hb : (d.name == name) = true := by simp [hd]
      rw [hb]
      simp only [if_true]
      cases hm : jsMapGet m d.name with
      | none =>
        simp only [hm]
        rw [ih, jsMapGet_set]
        rw [if_pos hd.symm]
        have hmn : jsMapGet m name = none := by rw [← hd]; exact hm
        rw [hmn]
      | some e =>
        simp only [hm]
        rw [ih, jsMapGet_set]
        rw [if_pos hd.symm]
        have hmn : jsMapGet m name = some e := by rw [← hd]; exact hm
        rw [hmn]
        simp only [maxFoldCount, List.foldl_cons]
    · have hb : (d.name == name) = false := by simp [hd]
      rw [hb]
      simp only [Bool.false_eq_true, if_false]
      cases hm : jsMapGet m d.name with
      | none =>
        simp only [hm]
        rw [ih, jsMapGet_set, if_neg (fun hh => hd hh.symm)]
      | some e =>
        simp only [hm]
        rw [ih, jsMapGet_set, if_neg (fun hh => hd hh.symm)]

theorem C6_merge_max_not_sum (manifestDeps importDeps : List DependencyInsight)
    (name : String) :
    jsMapGet (combineDeps manifestDeps importDeps) name =
      specMergedLookup manifestDeps importDeps name := by
  unfold combineDeps specMergedLookup
  rw [importFold_get, manifestFold_get]
  cases hg : (manifestDeps.filter (fun d => d.name == name)).getLast? with
  | some m => rfl
  | none => rfl

/-! ## C9: invariants of the subsystem analysis result -/

theorem jsMapSet_snd_mem {α : Type} (m : List (String × α)) (k : String) (v : α) :
    ∀ x ∈ (jsMapSet m k v).map Prod.snd, x ∈ m.map Prod.snd ∨ x = v := by
  intro x hx
  unfold jsMapSet at hx
  split at hx
  · rcases List.mem_map.mp hx with ⟨e, he, hex⟩
    rcases List.mem_map.mp he with ⟨e0, he0, he0e⟩
    by_cases h0 : e0.1 = k
    · right
      rw [← hex, ← he0e]
      simp [h0]
    · left
      rw [← hex, ← he0e]
      have : (e0.1 == k) = false := by simp [h0]
      simp only [this, Bool.false_eq_true, if_false]
      exact List.mem_map.mpr ⟨e0, he0, rfl⟩
  · rcases List.mem_map.mp hx with ⟨e, he, hex⟩
    rcases List.mem_append.mp he with he | he
    · exact Or.inl (List.mem_map.mpr ⟨e, he, hex⟩)
    · right
      rcases List.mem_singleton.mp he with rfl
      exact hex.symm ▸ rfl

/-- Keys stay pairwise distinct, and each stored subsystem's `type` equals
its key, through `jsMapSet m s.type s`. -/
theorem jsMapSet_keyed_inv (m : List (String × SubsystemInfo)) (s : SubsystemInfo)
    (hpw : m.Pairwise (fun a b => a.1 ≠ b.1))
    (hty : ∀ e ∈ m, e.2.type = e.1) :
    (jsMapSet m s.type s).Pairwise (fun a b => a.1 ≠ b.1) ∧
    ∀ e ∈ jsMapSet m s.type s, e.2.type = e.1 := by
  unfold jsMapSet
  split
  · constructor
    · have hkeys : ∀ e : String × SubsystemInfo,
          ((if e.1 == s.type then (s.type, s) else e) : String × SubsystemInfo).1 = e.1 := by
        intro e
        by_cases h : e.1 = s.type
        · simp [h]
        · have : (e.1 == s.type) = false := by simp [h]
          simp [this]
      refine (List.pairwise_map).mpr ?_
      refine hpw.imp_of_mem ?_
      intro a b _ _ hab
      rw [hkeys a, hkeys b]
      exact hab
    · intro e he
      rcases List.mem_map.mp he with ⟨e0, he0, he0e⟩
      by_cases h : e0.1 = s.type
      · have : (e0.1 == s.type) = true := by simp [h]
        rw [← he0e]
        simp [this]
      · have : (e0.1 == s.type) = false := by simp [h]
        rw [← he0e]
        simp only [this, Bool.false_eq_true, if_false]
        exact hty e0 he0
  · rename_i hany
    constructor
    · rw [List.pairwise_append]
      refine ⟨hpw, List.pairwise_singleton _ _, ?_⟩
      intro a ha b hb
      rcases List.mem_singleton.mp hb with rfl
      intro hak
      apply hany
      exact List.any_eq_true.mpr ⟨a, ha, by simp [hak]⟩
    · intro e he
      rcases List.mem_append.mp he with he | he
      · exact hty e he
      · rcases List.mem_singleton.mp he with rfl
        rfl

/-- Elements of `deduplicateSubsystems l` come from `l`. -/
theorem deduplicateSubsystems_subset (l : List SubsystemInfo) :
    ∀ s ∈ deduplicateSubsystems l, s ∈ l := by
  intro s hs
  unfold deduplicateSubsystems at hs
  have hs2 := (jsSortBy_perm _ _).mem_iff.mp hs
  suffices h : ∀ (m0 : List (String × SubsystemInfo)),
      ∀ x ∈ (l.foldl
        (fun m s =>
          match jsMapGet m s.type with
          | none => jsMapSet m s.type s
          | some existing =>
            if existing.confidence < s.confidence then jsMapSet m s.type s else m)
        m0).map Prod.snd, x ∈ m0.map Prod.snd ∨ x ∈ l by
    rcases h [] s hs2 with h | h
    · simp at h
    · exact h
  clear hs hs2
  induction l with
  | nil => intro m0 x hx; exact Or.inl hx
  | cons a l ih =>
    intro m0 x hx
    simp only [List.foldl_cons] at hx
    rcases hm : jsMapGet m0 a.type with _ | e
    · simp only [hm] at hx
      rcases ih (jsMapSet m0 a.type a) x hx with h | h
      · rcases jsMapSet_snd_mem m0 a.type a x h with h | h
        · exact Or.inl h
        · exact Or.inr (h ▸ List.mem_cons_self a l)
      · exact Or.inr (List.mem_cons_of_mem a h)
    · simp only [hm] at hx
      by_cases hc : e.confidence < a.confidence
      · rw [if_pos hc] at hx
        rcases ih (jsMapSet m0 a.type a) x hx with h | h
        · rcases jsMapSet_snd_mem m0 a.type a x h with h | h
          · exact Or.inl h
          · exact Or.inr (h ▸ List.mem_cons_self a l)
        · exact Or.inr (List.mem_cons_of_mem a h)
      · rw [if_neg hc] at hx
        rcases ih m0 x hx with h | h
        · exact Or.inl h
        · exact Or.inr (List.mem_cons_of_mem a h)

/-- The dedupe fold keeps keys distinct and values typed by their key. -/
theorem dedupeFold_inv (l : List SubsystemInfo) (m0 : List (String × SubsystemInfo))
    (hpw : m0.Pairwise (fun a b => a.1 ≠ b.1))
    (hty : ∀ e ∈ m0, e.2.type = e.1) :
    (l.foldl
      (fun m s =>
        match jsMapGet m s.type with
        | none => jsMapSet m s.type s
        | some existing =>
          if existing.confidence < s.confidence then jsMapSet m s.type s else m)
      m0).Pairwise (fun a b => a.1 ≠ b.1) ∧
    ∀ e ∈ (l.foldl
      (fun m s =>
        match jsMapGet m s.type with
        | none => jsMapSet m s.type s
        | some existing =>
          if existing.confidence < s.confidence then jsMapSet m s.type s else m)
      m0), e.2.type = e.1 := by
  induction l generalizing m0 with
  | nil => exact ⟨hpw, hty⟩
  | cons a l ih =>
    simp only [List.foldl_cons]
    rcases hm : jsMapGet m0 a.type with _ | e
    · simp only [hm]
      rcases jsMapSet_keyed_inv m0 a hpw hty with ⟨h1, h2⟩
      exact ih (jsMapSet m0 a.type a) h1 h2
    · simp only [hm]
      by_cases hc : e.confidence < a.confidence
      · rw [if_pos hc]
        rcases jsMapSet_keyed_inv m0 a hpw hty with ⟨h1, h2⟩
        exact ih (jsMapSet m0 a.type a) h1 h2
      · rw [if_neg hc]
        exact ih m0 hpw hty

/-- `deduplicateSubsystems` yields at most one entry per `type`. -/
theorem deduplicateSubsystems_types (l : List SubsystemInfo) :
    (deduplicateSubsystems l).Pairwise (fun s t => s.type ≠ t.type) := by
  unfold deduplicateSubsystems
  rcases dedupeFold_inv l [] (List.Pairwise.nil) (by intro e he; simp at he) with ⟨h1, h2⟩
  refine List.Pairwise.perm ?_ (jsSortBy_perm _ _).symm (fun hxy => fun hh => hxy hh.symm)
  rw [List.pairwise_map]
  refine h1.imp_of_mem ?_
  intro a b ha hb hab
  rw [h2 a ha, h2 b hb]
  exact hab

/-- `deduplicateSubsystems` sorts descending by confidence. -/
theorem deduplicateSubsystems_sorted (l : List SubsystemInfo) :
    (deduplicateSubsystems l).Pairwise (fun s t => t.confidence ≤ s.confidence) := by
  unfold deduplicateSubsystems
  have h := jsSortBy_pairwise
    (fun (a b : SubsystemInfo) => decide (b.confidence ≤ a.confidence))
    (fun a b c hab hbc => by
      simp only [decide_eq_true_eq] at *
      exact le_trans hbc hab)
    (fun a b => by
      simp only [Bool.or_eq_true, decide_eq_true_eq]
      exact le_total b.confidence a.confidence)
    ((l.foldl
      (fun m s =>
        match jsMapGet m s.type with
        | none => jsMapSet m s.type s
        | some existing =>
          if existing.confidence < s.confidence then jsMapSet m s.type s else m)
      []).map Prod.snd)
  exact h.imp (fun hx => by simpa using hx)

theorem detectScore_nonneg (patterns : List PatternRule) (filePaths : List String)
    (st0 : List String × Rat)
    (hw : ∀ p ∈ patterns, 0 ≤ p.weight) (h0 : 0 ≤ st0.2) :
    0 ≤ (patterns.foldl
      (fun (st : List String × Rat) pr =>
        let patternMatches := findPatternMatches filePaths pr.matchStrs
        if 0 < patternMatches.length then
          let matched := patternMatches.foldl
            (fun acc file => if acc.contains file then acc else acc ++ [file]) st.1
          let normalizedScore :=
            min ((patternMatches.length : Rat) / (FILE_COUNT_NORMALIZER : Rat)) 1
          (matched, st.2 + pr.weight * normalizedScore)
        else st)
      st0).2 := by
  induction patterns generalizing st0 with
  | nil => exact h0
  | cons pr rest ih =>
    simp only [List.foldl_cons]
    refine ih _ (fun p hp => hw p (List.mem_cons_of_mem pr hp)) ?_
    split
    · have hwpr : 0 ≤ pr.weight := hw pr (List.mem_cons_self pr rest)
      have hns : 0 ≤ min ((List.length (findPatternMatches filePaths pr.matchStrs) : Rat) /
          (FILE_COUNT_NORMALIZER : Rat)) 1 := by
        refine le_min ?_ (by norm_num)
        positivity
      have := mul_nonneg hwpr hns
      simp only []
      exact add_nonneg h0 this
    · exact h0

theorem detectSubsystem_confidence (filePaths : List String) (config : SubsystemConfig)
    (hw : ∀ p ∈ config.patterns, 0 ≤ p.weight) (s : SubsystemInfo)
    (h : detectSubsystem filePaths config = some s) :
    0 ≤ s.confidence ∧ s.confidence ≤ 1 := by
  have hscore : 0 ≤ (detectFold filePaths config).2 :=
    detectScore_nonneg config.patterns filePaths ([], 0) hw (le_refl 0)
  simp only [detectSubsystem] at h
  split at h
  · exact absurd h (by simp)
  · injection h with h'
    subst h'
    exact ⟨le_min hscore (by norm_num), min_le_right _ _⟩

/-- Every configured rule weight is nonnegative. -/
theorem SUBSYSTEM_CONFIGS_weights_nonneg :
    ∀ config ∈ SUBSYSTEM_CONFIGS, ∀ p ∈ config.patterns, 0 ≤ p.weight := by
  intro config hcfg
  fin_cases hcfg <;> intro p hp <;> fin_cases hp <;> norm_num

/-- C9: every reported subsystem has confidence in `[0, 1]`, at most one
subsystem is reported per `type`, and the list is sorted descending by
confidence. -/
theorem C9_invariants (repo : Option GitHubRepository)
    (files : Option (List (Option RepositoryFile))) (a : SubsystemAnalysis)
    (h : analyzeSubsystems repo files = Except.ok a) :
    (∀ s ∈ a.subsystems, 0 ≤ s.confidence ∧ s.confidence ≤ 1) ∧
    a.subsystems.Pairwise (fun s t => s.type ≠ t.type) ∧
    a.subsystems.Pairwise (fun s t => t.confidence ≤ s.confidence) := by
  cases repo with
  | none => simp [analyzeSubsystems] at h
  | some r =>
    cases files with
    | none =>
      simp only [analyzeSubsystems] at h
      injection h with h'
      subst h'
      exact ⟨by intro s hs; simp at hs, List.Pairwise.nil, List.Pairwise.nil⟩
    | some l =>
      simp only [analyzeSubsystems] at h
      by_cases h1 : l.length = 0
      · rw [if_pos h1] at h
        injection h with h'
        subst h'
        exact ⟨by intro s hs; simp at hs, List.Pairwise.nil, List.Pairwise.nil⟩
      · rw [if_neg h1] at h
        by_cases h2 : (filePathsOf l).length = 0
        · rw [if_pos h2] at h
          injection h with h'
          subst h'
          exact ⟨by intro s hs; simp at hs, List.Pairwise.nil, List.Pairwise.nil⟩
        · rw [if_neg h2] at h
          injection h with h'
          subst h'
          refine ⟨?_, deduplicateSubsystems_types _, deduplicateSubsystems_sorted _⟩
          intro s hs
          have hmem := deduplicateSubsystems_subset _ s hs
          have hfm := (List.mem_filter.mp hmem).1
          rcases List.mem_filterMap.mp hfm with ⟨config, hcfg, hdet⟩
          exact detectSubsystem_confidence _ config
            (SUBSYSTEM_CONFIGS_weights_nonneg config hcfg) s hdet

/-- Witness for C9 at a concrete input. -/
theorem C9_witness :
    (∀ s ∈ (SubsystemAnalysis.mk [] "Unknown Project").subsystems,
        0 ≤ s.confidence ∧ s.confidence ≤ 1) ∧
    (SubsystemAnalysis.mk [] "Unknown Project").subsystems.Pairwise
      (fun s t => s.type ≠ t.type) ∧
    (SubsystemAnalysis.mk [] "Unknown Project").subsystems.Pairwise
      (fun s t => t.confidence ≤ s.confidence) :=
  C9_invariants (some ⟨"r", none⟩) (some []) ⟨[], "Unknown Project"⟩ rfl

/-! ## C5: ordering of a directory node's children -/

theorem nodeLe_total (a b : TreeNode) : (nodeLe a b || nodeLe b a) = true := by
  unfold nodeLe
  cases ha : a.type <;> cases hb : b.type <;> simp only []
  · exact localeLe_total a.name b.name
  · simp
  · simp
  · exact localeLe_total a.name b.name

theorem nodeLe_trans (a b c : TreeNode)
    (hab : nodeLe a b = true) (hbc : nodeLe b c = true) : nodeLe a c = true := by
  unfold nodeLe at *
  cases ha : a.type <;> cases hb : b.type <;> cases hc : c.type <;>
    simp only [ha, hb, hc] at hab hbc ⊢ <;>
    first
      | exact localeLe_trans hab hbc
      | simp at hab
      | simp at hbc

/-! The C5 invariant: every directory level holds its children sorted by
the `sortTreeNode` comparator, recursively. -/
mutual
inductive SortedNode : TreeNode → Prop where
  | undef : ∀ n k p st ft sz, SortedNode (.mk n k p .undef st ft sz)
  | arr : ∀ n k p cs st ft sz,
      cs.toList.Pairwise (fun a b => nodeLe a b = true) →
      SortedForest cs →
      SortedNode (.mk n k p (.arr cs) st ft sz)
inductive SortedForest : Forest → Prop where
  | nil : SortedForest .nil
  | cons : ∀ t ts, SortedNode t → SortedForest ts → SortedForest (.cons t ts)
end

theorem toList_ofList (l : List TreeNode) : (Forest.ofList l).toList = l := by
  induction l with
  | nil => rfl
  | cons t ts ih => simp [Forest.ofList, Forest.toList, ih]

theorem SortedForest_ofList (l : List TreeNode) (h : ∀ t ∈ l, SortedNode t) :
    SortedForest (Forest.ofList l) := by
  induction l with
  | nil => exact SortedForest.nil
  | cons t ts ih =>
    exact SortedForest.cons _ _ (h t (List.mem_cons_self t ts))
      (ih (fun x hx => h x (List.mem_cons_of_mem t hx)))

mutual
theorem sortTreeNode_sorted : ∀ t : TreeNode, SortedNode (sortTreeNode t)
  | .mk n k p c st ft sz => by
    cases c with
    | undef => exact SortedNode.undef n k p st ft sz
    | arr cs =>
      show SortedNode (.mk n k p (.arr (Forest.ofList (jsSortBy nodeLe (sortForestList cs)))) st ft sz)
      refine SortedNode.arr n k p _ st ft sz ?_ ?_
      · rw [toList_ofList]
        exact jsSortBy_pairwise nodeLe nodeLe_trans nodeLe_total _
      · refine SortedForest_ofList _ ?_
        intro t ht
        have ht2 := (jsSortBy_perm nodeLe (sortForestList cs)).mem_iff.mp ht
        exact sortForestList_sorted cs t ht2
theorem sortForestList_sorted : ∀ f : Forest, ∀ t ∈ sortForestList f, SortedNode t
  | .nil => by intro t ht; simp [sortForestList] at ht
  | .cons hd tl => by
    intro t ht
    rcases List.mem_cons.mp ht with hh | hh
    · rw [hh]; exact sortTreeNode_sorted hd
    · exact sortForestList_sorted tl t hh
end

/-- C5 (amended): in every tree `buildProjectTree` returns, each directory
node's children are sorted by the source comparator: directories before
files, then ascending in `localeCompare`'s locale-aware order
(case-insensitive at the primary level) — not case-sensitive ordinal
order. -/
theorem C5_amended (files : List RepositoryFile) (subsystems : List SubsystemInfo) :
    SortedNode (buildProjectTree files subsystems).root := by
  show SortedNode (sortTreeNode _)
  exact sortTreeNode_sorted _

def childNamesOf (t : TreeNode) : List String :=
  match t.children with
  | .undef => []
  | .arr cs => cs.toList.map TreeNode.name

def childTypesOf (t : TreeNode) : List NodeKind :=
  match t.children with
  | .undef => []
  | .arr cs => cs.toList.map TreeNode.type

/-- Case-sensitive ordinal (code-unit lexicographic) string order — the
order C5 asserts for sibling names. -/
def ordinalCharLe : List Char → List Char → Bool
  | [], _ => true
  | _ :: _, [] => false
  | a :: as, b :: bs =>
    if a.toNat < b.toNat then true
    else if b.toNat < a.toNat then false
    else ordinalCharLe as bs

def ordinalLe (a b : String) : Bool := ordinalCharLe a.data b.data

/-- C5 counterexample: two sibling files `B.txt` and `a.txt` come out in
the order `["a.txt", "B.txt"]` (locale order), which is not ascending
case-sensitive ordinal order ("B" < "a" in code points). -/
theorem C5_counterexample :
    childNamesOf (buildProjectTree
      [⟨"B.txt", "", 0, "text"⟩, ⟨"a.txt", "", 0, "text"⟩] []).root = ["a.txt", "B.txt"] ∧
    childTypesOf (buildProjectTree
      [⟨"B.txt", "", 0, "text"⟩, ⟨"a.txt", "", 0, "text"⟩] []).root = [.file, .file] ∧
    ¬ List.Pairwise (fun a b => ordinalLe a b = true) ["a.txt", "B.txt"] := by
  refine ⟨by decide, by decide, by decide⟩

/-! ## C4: the tree's file/directory counters

The claim compares `totalFiles`/`totalDirectories` with counts of distinct
paths and distinct proper path prefixes.  The development works at the
level of `/`-separated segment lists and transfers to path strings through
the split/join bijection on *clean* paths (nonempty, no empty segments). -/

/-- A clean path: splitting on `/` yields no empty piece (so the path is
nonempty and has no leading, trailing or doubled slash). -/
def cleanPath (p : String) : Prop := [] ∉ splitCharsOn '/' p.data

instance (p : String) : Decidable (cleanPath p) := by
  unfold cleanPath
  infer_instance

theorem splitCharsOn_pieces_sep_free (sep : Char) (l : List Char) :
    ∀ piece ∈ splitCharsOn sep l, sep ∉ piece := by
  induction l with
  | nil =>
    intro piece hp
    simp only [splitCharsOn, List.mem_singleton] at hp
    subst hp
    simp
  | cons c rest ih =>
    intro piece hp
    simp only [splitCharsOn] at hp
    rcases hsp : splitCharsOn sep rest with _ | ⟨seg, segs⟩
    · exact absurd hsp (splitCharsOn_ne_nil sep rest)
    · simp only [hsp] at hp
      by_cases hc : c = sep
      · rw [if_pos hc] at hp
        rcases List.mem_cons.mp hp with hp | hp
        · subst hp; simp
        · exact ih piece (hsp ▸ hp)
      · rw [if_neg hc] at hp
        rcases List.mem_cons.mp hp with hp | hp
        · subst hp
          intro hmem
          rcases List.mem_cons.mp hmem with hmem | hmem
          · exact hc hmem.symm
          · exact ih seg (hsp ▸ List.mem_cons_self seg segs) hmem
        · exact ih piece (hsp ▸ List.mem_cons_of_mem seg hp)

theorem splitCharsOn_sep_free (sep : Char) (p : List Char) (h : sep ∉ p) :
    splitCharsOn sep p = [p] := by
  induction p with
  | nil => rfl
  | cons c rest ih =>
    have hc : c ≠ sep := fun hh => h (hh ▸ List.mem_cons_self c rest)
    have hrest : sep ∉ rest := fun hh => h (List.mem_cons_of_mem c hh)
    simp only [splitCharsOn, ih hrest, if_neg hc]

theorem splitCharsOn_append_sep (sep : Char) (p t : List Char) (h : sep ∉ p) :
    splitCharsOn sep (p ++ sep :: t) = p :: splitCharsOn sep t := by
  induction p with
  | nil =>
    simp only [List.nil_append, splitCharsOn]
    rcases hsp : splitCharsOn sep t with _ | ⟨seg, segs⟩
    · exact absurd hsp (splitCharsOn_ne_nil sep t)
    · simp
  | cons c rest ih =>
    have hc : c ≠ sep := fun hh => h (hh ▸ List.mem_cons_self c rest)
    have hrest : sep ∉ rest := fun hh => h (List.mem_cons_of_mem c hh)
    have ih2 := ih hrest
    show splitCharsOn sep (c :: (rest ++ sep :: t)) = (c :: rest) :: splitCharsOn sep t
    simp only [splitCharsOn, ih2, if_neg hc]

theorem joinCharsWith_append (sep : Char) (a b : List (List Char))
    (ha : a ≠ []) (hb : b ≠ []) :
    joinCharsWith sep (a ++ b) = joinCharsWith sep a ++ sep :: joinCharsWith sep b := by
  induction a with
  | nil => exact absurd rfl ha
  | cons x xs ih =>
    cases xs with
    | nil =>
      cases b with
      | nil => exact absurd rfl hb
      | cons y ys => simp [joinCharsWith]
    | cons x2 xs2 =>
      have h2 := ih (by simp)
      show x ++ sep :: joinCharsWith sep (x2 :: (xs2 ++ b)) =
        (x ++ sep :: joinCharsWith sep (x2 :: xs2)) ++ sep :: joinCharsWith sep b
      rw [List.cons_append] at h2
      rw [h2]
      simp

theorem splitCharsOn_joinCharsWith (sep : Char) (L : List (List Char))
    (hne : L ≠ []) (hfree : ∀ piece ∈ L, sep ∉ piece) :
    splitCharsOn sep (joinCharsWith sep L) = L := by
  induction L with
  | nil => exact absurd rfl hne
  | cons p rest ih =>
    cases rest with
    | nil =>
      simp only [joinCharsWith]
      exact splitCharsOn_sep_free sep p (hfree p (List.mem_cons_self p []))
    | cons q rs =>
      have hjoin : joinCharsWith sep (p :: q :: rs) = p ++ sep :: joinCharsWith sep (q :: rs) := by
        simp [joinCharsWith]
      rw [hjoin, splitCharsOn_append_sep sep p _ (hfree p (List.mem_cons_self p _))]
      rw [ih (by simp) (fun piece hp => hfree piece (List.mem_cons_of_mem p hp))]

/-! String-level corollaries for clean paths. -/

theorem jsSplit_all_ne_empty (p : String) (h : cleanPath p) :
    ∀ s ∈ jsSplit p '/', s ≠ "" := by
  intro s hs
  rcases List.mem_map.mp hs with ⟨piece, hpiece, hmk⟩
  intro hempty
  have : piece = [] := by
    have := congrArg String.data hmk
    simp only [] at this
    rw [hempty] at hmk
    have := congrArg String.data hmk
    exact this
  exact h (this ▸ hpiece)

theorem cleanPath_pathParts (p : String) (h : cleanPath p) :
    pathParts p = jsSplit p '/' := by
  unfold pathParts
  rw [List.filter_eq_self]
  intro s hs
  simp only [decide_eq_true_eq, ne_eq]
  exact jsSplit_all_ne_empty p h s hs

theorem pathParts_ne_nil (p : String) (h : cleanPath p) : pathParts p ≠ [] := by
  rw [cleanPath_pathParts p h]
  unfold jsSplit
  intro hn
  exact splitCharsOn_ne_nil '/' p.data (List.map_eq_nil_iff.mp hn)

theorem pathParts_sep_free (p : String) (h : cleanPath p) :
    ∀ s ∈ pathParts p, '/' ∉ s.data := by
  rw [cleanPath_pathParts p h]
  intro s hs
  rcases List.mem_map.mp hs with ⟨piece, hpiece, hmk⟩
  rw [← hmk]
  exact splitCharsOn_pieces_sep_free '/' p.data piece hpiece

theorem joinWithSlash_pathParts (p : String) (h : cleanPath p) :
    joinWithSlash (pathParts p) = p := by
  rw [cleanPath_pathParts p h]
  unfold joinWithSlash jsSplit
  rw [List.map_map]
  have hdm : (String.data ∘ String.mk) = (id : List Char → List Char) :=
    funext (fun l => rfl)
  rw [hdm, List.map_id, joinCharsWith_splitCharsOn]

/-- Nonempty lists of slash-free segments: the domain on which
`joinWithSlash` is injective. -/
def goodSegs (L : List String) : Prop := L ≠ [] ∧ ∀ s ∈ L, '/' ∉ s.data

theorem goodSegs_pathParts (p : String) (h : cleanPath p) : goodSegs (pathParts p) :=
  ⟨pathParts_ne_nil p h, pathParts_sep_free p h⟩

theorem jsSplit_joinWithSlash (L : List String) (h : goodSegs L) :
    jsSplit (joinWithSlash L) '/' = L := by
  unfold joinWithSlash jsSplit
  have : splitCharsOn '/' (String.mk (joinCharsWith '/' (L.map String.data))).data =
      L.map String.data := by
    show splitCharsOn '/' (joinCharsWith '/' (L.map String.data)) = L.map String.data
    refine splitCharsOn_joinCharsWith '/' (L.map String.data)
      (fun hn => h.1 (List.map_eq_nil_iff.mp hn)) ?_
    intro piece hp
    rcases List.mem_map.mp hp with ⟨s, hs, hsd⟩
    exact hsd ▸ h.2 s hs
  rw [this, List.map_map]
  have hdm : (String.mk ∘ String.data) = (id : String → String) :=
    funext (fun s => rfl)
  rw [hdm, List.map_id]

theorem joinWithSlash_inj (L1 L2 : List String) (h1 : goodSegs L1) (h2 : goodSegs L2)
    (h : joinWithSlash L1 = joinWithSlash L2) : L1 = L2 := by
  have := jsSplit_joinWithSlash L1 h1
  rw [h, jsSplit_joinWithSlash L2 h2] at this
  exact this.symm

theorem goodSegs_of_prefix (L q : List String) (h : goodSegs L) (hq : q <+: L)
    (hne : q ≠ []) : goodSegs q :=
  ⟨hne, fun s hs => h.2 s (hq.subset hs)⟩

/-- A strict segment extension joins to a strictly larger string in the
collation order. -/
theorem localeLe_join_ext (L t : List String) (hL : goodSegs L) (ht : t ≠ []) :
    localeLe (joinWithSlash (L ++ t)) (joinWithSlash L) = false := by
  have hjoin : joinWithSlash (L ++ t) =
      ⟨(joinWithSlash L).data ++ '/' :: joinCharsWith '/' (t.map String.data)⟩ := by
    unfold joinWithSlash
    rw [List.map_append]
    rw [joinCharsWith_append '/' _ _ (fun hn => hL.1 (List.map_eq_nil_iff.mp hn))
      (fun hn => ht (List.map_eq_nil_iff.mp hn))]
  rw [hjoin]
  exact (localeLe_extension (joinWithSlash L) '/' _).2

/-! Proper nonempty segment prefixes. -/

def properSegPrefixes : List String → List (List String)
  | [] => []
  | [_] => []
  | part :: rest => [part] :: (properSegPrefixes rest).map (fun l => part :: l)

theorem properSegPrefixes_mem (g : List String) (q : List String) :
    q ∈ properSegPrefixes g ↔ (q ≠ [] ∧ q ≠ g ∧ q <+: g) := by
  induction g generalizing q with
  | nil =>
    simp only [properSegPrefixes, List.not_mem_nil, false_iff]
    intro ⟨hne, _, hpre⟩
    exact hne (List.prefix_nil.mp hpre)
  | cons x rest ih =>
    cases rest with
    | nil =>
      simp only [properSegPrefixes, List.not_mem_nil, false_iff]
      intro ⟨hne, hneg, hpre⟩
      cases q with
      | nil => exact hne rfl
      | cons qh qt =>
        rcases List.cons_prefix_cons.mp hpre with ⟨rfl, hpre2⟩
        have hqt : qt = [] := List.prefix_nil.mp hpre2
        subst hqt
        exact hneg rfl
    | cons y rs =>
      show q ∈ [x] :: (properSegPrefixes (y :: rs)).map (fun l => x :: l) ↔ _
      rw [List.mem_cons]
      constructor
      · rintro (rfl | hmem)
        · exact ⟨by simp, by simp, ⟨y :: rs, rfl⟩⟩
        · rcases List.mem_map.mp hmem with ⟨q', hq', rfl⟩
          rcases (ih q').mp hq' with ⟨h1, h2, h3⟩
          refine ⟨by simp, ?_, ?_⟩
          · intro hh
            injection hh with _ hh2
            exact h2 hh2
          · exact (List.cons_prefix_cons).mpr ⟨rfl, h3⟩
      · rintro ⟨hne, hneg, hpre⟩
        cases q with
        | nil => exact absurd rfl hne
        | cons qh qt =>
          rcases (List.cons_prefix_cons).mp hpre with ⟨rfl, hpre2⟩
          cases qt with
          | nil => exact Or.inl rfl
          | cons q2 qt2 =>
            right
            refine List.mem_map.mpr ⟨q2 :: qt2, ?_, rfl⟩
            refine (ih (q2 :: qt2)).mpr ⟨by simp, ?_, hpre2⟩
            intro hh
            exact hneg (by rw [hh])

theorem properSegPrefixes_nodup (g : List String) : (properSegPrefixes g).Nodup := by
  induction g with
  | nil => exact List.nodup_nil
  | cons x rest ih =>
    cases rest with
    | nil => exact List.nodup_nil
    | cons y rs =>
      show ([x] :: (properSegPrefixes (y :: rs)).map (fun l => x :: l)).Nodup
      refine List.nodup_cons.mpr ⟨?_, ?_⟩
      · intro hmem
        rcases List.mem_map.mp hmem with ⟨q', hq', heq⟩
        have hne : q' ≠ [] := ((properSegPrefixes_mem _ q').mp hq').1
        injection heq with _ h2
        exact hne h2
      · refine List.Nodup.map ?_ ih
        intro a b hab
        injection hab

/-! Forest lookup along a segment path. -/

def forestLookup : Forest → List String → Option TreeNode
  | _, [] => none
  | cs, part :: rest =>
    match forestFind cs part with
    | none => none
    | some node =>
      match rest with
      | [] => some node
      | _ :: _ => forestLookup (childForest node) rest

theorem forestFind_name : ∀ (cs : Forest) (n : String) (t : TreeNode),
    forestFind cs n = some t → t.name = n
  | .nil, n, t, h => by simp [forestFind] at h
  | .cons hd tl, n, t, h => by
    simp only [forestFind] at h
    by_cases hh : hd.name = n
    · have hb : (hd.name == n) = true := by simp [hh]
      rw [if_pos hb] at h
      injection h with h'
      rw [← h']
      exact hh
    · have hb : (hd.name == n) = false := by simp [hh]
      rw [hb] at h
      simp only [Bool.false_eq_true, if_false] at h
      exact forestFind_name tl n t h

theorem forestFind_append : ∀ (cs : Forest) (t : TreeNode) (n : String),
    forestFind (forestAppend cs t) n =
      (match forestFind cs n with
       | some x => some x
       | none => if t.name == n then some t else none)
  | .nil, t, n => rfl
  | .cons hd tl, t, n => by
    show forestFind (.cons hd (forestAppend tl t)) n = _
    simp only [forestFind]
    by_cases hh : hd.name = n
    · have hb : (hd.name == n) = true := by simp [hh]
      simp only [hb, if_true]
    · have hb : (hd.name == n) = false := by simp [hh]
      simp only [hb, Bool.false_eq_true, if_false]
      exact forestFind_append tl t n

theorem forestReplace_find : ∀ (cs : Forest) (n : String) (t' : TreeNode) (m : String),
    t'.name = n →
    forestFind (forestReplace cs n t') m =
      (if m = n then
        (match forestFind cs n with
         | none => none
         | some _ => some t')
       else forestFind cs m)
  | .nil, n, t', m, hname => by
    simp only [forestReplace, forestFind]
    split <;> rfl
  | .cons hd tl, n, t', m, hname => by
    simp only [forestReplace]
    by_cases hh : hd.name = n
    · have hb : (hd.name == n) = true := by simp [hh]
      rw [if_pos hb]
      simp only [forestFind, hb, if_true]
      by_cases hm : m = n
      · have hb2 : (t'.name == m) = true := by simp [hname, hm]
        rw [if_pos hm]
        simp only [hb2, if_true]
      · have hb2 : (t'.name == m) = false := by
          simp [hname]; exact fun hh2 => hm hh2.symm
        have hb3 : (hd.name == m) = false := by
          simp [hh]; exact fun hh2 => hm hh2.symm
        rw [if_neg hm]
        simp only [hb2, hb3, Bool.false_eq_true, if_false]
    · have hb : (hd.name == n) = false := by simp [hh]
      rw [if_neg (by simp [hb])]
      simp only [forestFind, hb, Bool.false_eq_true, if_false]
      by_cases hm : m = n
      · have hb2 : (hd.name == m) = false := by
          simp; intro hh2; exact hh (hh2.trans hm)
        simp only [hb2, Bool.false_eq_true, if_false]
        rw [forestReplace_find tl n t' m hname, if_pos hm]
      · by_cases hdm : hd.name = m
        · have hb2 : (hd.name == m) = true := by simp [hdm]
          simp only [hb2, if_true]
          rw [if_neg hm]
        · have hb2 : (hd.name == m) = false := by simp [hdm]
          simp only [hb2, Bool.false_eq_true, if_false]
          rw [forestReplace_find tl n t' m hname, if_neg hm]

theorem forestLookup_nil (q : List String) (h : q ≠ []) :
    forestLookup .nil q = none := by
  cases q with
  | nil => exact absurd rfl h
  | cons qh qt => rfl

theorem withChildren_name (t : TreeNode) (c : Children) :
    (t.withChildren c).name = t.name := by
  cases t
  rfl

theorem childForest_withChildren (t : TreeNode) (sub : Forest) :
    childForest (t.withChildren (.arr sub)) = sub := by
  cases t
  rfl

theorem lookup_append_cons (cs : Forest) (t : TreeNode) (qh : String) (qt : List String)
    (hab : forestFind cs t.name = none) :
    forestLookup (forestAppend cs t) (qh :: qt) =
      (if qh = t.name then (if qt = [] then some t else forestLookup (childForest t) qt)
       else forestLookup cs (qh :: qt)) := by
  show (match forestFind (forestAppend cs t) qh with
        | none => none
        | some node =>
          match qt with
          | [] => some node
          | _ :: _ => forestLookup (childForest node) qt) = _
  rw [forestFind_append]
  by_cases hq : qh = t.name
  · rw [if_pos hq]
    rw [hq, hab]
    have hb : (t.name == t.name) = true := by simp
    simp only [hb, if_true]
    cases qt with
    | nil => rfl
    | cons q2 qs => rfl
  · rw [if_neg hq]
    cases hf : forestFind cs qh with
    | none =>
      have hb : (t.name == qh) = false := by simp; exact fun hh => hq hh.symm
      simp only [hb, Bool.false_eq_true, if_false]
      show none = forestLookup cs (qh :: qt)
      show none = (match forestFind cs qh with
        | none => none
        | some node => match qt with
          | [] => some node
          | _ :: _ => forestLookup (childForest node) qt)
      rw [hf]
    | some x =>
      simp only []
      show (match qt with
            | [] => some x
            | _ :: _ => forestLookup (childForest x) qt) = forestLookup cs (qh :: qt)
      show _ = (match forestFind cs qh with
        | none => none
        | some node => match qt with
          | [] => some node
          | _ :: _ => forestLookup (childForest node) qt)
      rw [hf]

theorem lookup_replace_cons (cs : Forest) (n : String) (t' : TreeNode)
    (qh : String) (qt : List String)
    (hname : t'.name = n) (hsome : (forestFind cs n).isSome = true) :
    forestLookup (forestReplace cs n t') (qh :: qt) =
      (if qh = n then (if qt = [] then some t' else forestLookup (childForest t') qt)
       else forestLookup cs (qh :: qt)) := by
  show (match forestFind (forestReplace cs n t') qh with
        | none => none
        | some node =>
          match qt with
          | [] => some node
          | _ :: _ => forestLookup (childForest node) qt) = _
  rw [forestReplace_find cs n t' qh hname]
  by_cases hq : qh = n
  · rw [if_pos hq, if_pos hq]
    cases hf : forestFind cs n with
    | none => rw [hf] at hsome; simp at hsome
    | some x =>
      simp only []
      cases qt with
      | nil => rfl
      | cons q2 qs => rfl
  · rw [if_neg hq, if_neg hq]
    show (match forestFind cs qh with
        | none => none
        | some node => match qt with
          | [] => some node
          | _ :: _ => forestLookup (childForest node) qt) = forestLookup cs (qh :: qt)
    rfl

theorem forestLookup_cons (cs : Forest) (qh : String) (qt : List String) :
    forestLookup cs (qh :: qt) =
      (match forestFind cs qh with
       | none => none
       | some node =>
         match qt with
         | [] => some node
         | _ :: _ => forestLookup (childForest node) qt) := rfl

theorem prefix_singleton {α : Type} {q : List α} {x : α} (h : q <+: [x]) (hne : q ≠ []) :
    q = [x] := by
  cases q with
  | nil => exact absurd rfl hne
  | cons qh qt =>
    rcases List.cons_prefix_cons.mp h with ⟨rfl, h2⟩
    rw [List.prefix_nil.mp h2]

theorem TreeNode.name_mk (n : String) (k : NodeKind) (p : String) (c : Children)
    (st ft : Option String) (sz : Option Nat) :
    (TreeNode.mk n k p c st ft sz).name = n := rfl

/-- Behaviour of one `insertSegs` walk: which segment paths become present,
and how many file/directory nodes are created. -/
theorem insertSegs_spec (smap : List (String × String)) (file : RepositoryFile) :
    ∀ (segs : List String) (soFar : String) (cs : Forest), segs ≠ [] →
    (∀ q : List String, q ≠ [] →
        ((forestLookup (insertSegs smap file segs soFar cs).1 q).isSome = true ↔
          ((forestLookup cs q).isSome = true ∨ q <+: segs))) ∧
    (insertSegs smap file segs soFar cs).2.1 =
      (if (forestLookup cs segs).isSome then 0 else 1) ∧
    (insertSegs smap file segs soFar cs).2.2 =
      ((properSegPrefixes segs).filter (fun q => !(forestLookup cs q).isSome)).length
  | [], _, _, hne => absurd rfl hne
  | [part], soFar, cs, _ => by
    cases hfind : forestFind cs part with
    | none =>
      simp only [insertSegs, hfind, List.isEmpty_nil, if_true]
      refine ⟨?_, ?_, ?_⟩
      · intro q hq
        cases q with
        | nil => exact absurd rfl hq
        | cons qh qt =>
          rw [lookup_append_cons]
          swap
          exact hfind
          simp only [TreeNode.name_mk]
          by_cases hqh : qh = part
          · subst hqh
            rw [if_pos rfl]
            cases qt with
            | nil =>
              rw [if_pos rfl]
              simp only [Option.isSome_some, true_iff]
              exact Or.inr (List.prefix_refl _)
            | cons q2 qs =>
              have hcf : childForest (TreeNode.mk qh .file
                  (if soFar = "" then qh else soFar ++ "/" ++ qh) .undef
                  (jsMapGet smap (if soFar = "" then qh else soFar ++ "/" ++ qh))
                  (some file.type) (some file.size)) = .nil := rfl
              rw [if_neg (by simp), hcf, forestLookup_nil _ (by simp)]
              simp only [Option.isSome_none, Bool.false_eq_true, false_iff]
              rintro (h | h)
              · rw [forestLookup_cons, hfind] at h
                simp at h
              · rcases List.cons_prefix_cons.mp h with ⟨_, h2⟩
                simp at h2
          · rw [if_neg hqh]
            constructor
            · exact Or.inl
            · rintro (h | h)
              · exact h
              · rcases List.cons_prefix_cons.mp h with ⟨h1, _⟩
                exact absurd h1 hqh
      · rw [forestLookup_cons, hfind]
        rfl
      · rfl
    | some node =>
      simp only [insertSegs, hfind, List.isEmpty_nil, if_true]
      refine ⟨?_, ?_, ?_⟩
      · intro q hq
        constructor
        · exact Or.inl
        · rintro (h | h)
          · exact h
          · rw [prefix_singleton h hq, forestLookup_cons, hfind]
            rfl
      · rw [forestLookup_cons, hfind]
        rfl
      · rfl
  | part :: r0 :: rs, soFar, cs, _ => by
    have ihall := fun cs0 => insertSegs_spec smap file (r0 :: rs)
      (if soFar = "" then part else soFar ++ "/" ++ part) cs0 (by simp)
    cases hfind : forestFind cs part with
    | none =>
      have ih := ihall Forest.nil
      rcases hre : insertSegs smap file (r0 :: rs)
          (if soFar = "" then part else soFar ++ "/" ++ part) Forest.nil with ⟨sub, f, d⟩
      rw [hre] at ih
      simp only at ih
      rcases ih with ⟨ihp, ihf, ihd⟩
      rw [insertSegs]
      simp only [hfind, hre, List.isEmpty_cons, Bool.false_eq_true, if_false]
      refine ⟨?_, ?_, ?_⟩
      · intro q hq
        cases q with
        | nil => exact absurd rfl hq
        | cons qh qt =>
          rw [lookup_append_cons]
          swap
          exact hfind
          simp only [TreeNode.name_mk]
          by_cases hqh : qh = part
          · subst hqh
            rw [if_pos rfl]
            cases qt with
            | nil =>
              rw [if_pos rfl]
              simp only [Option.isSome_some, true_iff]
              exact Or.inr ⟨r0 :: rs, rfl⟩
            | cons q2 qs =>
              rw [if_neg (by simp)]
              have hcf : childForest (TreeNode.mk qh .directory
                  (if soFar = "" then qh else soFar ++ "/" ++ qh) (.arr sub)
                  (jsMapGet smap (if soFar = "" then qh else soFar ++ "/" ++ qh))
                  none none) = sub := rfl
              rw [hcf]
              rw [ihp (q2 :: qs) (by simp)]
              rw [forestLookup_nil _ (by simp)]
              constructor
              · rintro (h | h)
                · simp at h
                · refine Or.inr (List.cons_prefix_cons.mpr ⟨rfl, h⟩)
              · rintro (h | h)
                · rw [forestLookup_cons, hfind] at h
                  simp at h
                · exact Or.inr (List.cons_prefix_cons.mp h).2
          · rw [if_neg hqh]
            constructor
            · exact Or.inl
            · rintro (h | h)
              · exact h
              · rcases List.cons_prefix_cons.mp h with ⟨h1, _⟩
                exact absurd h1 hqh
      · rw [forestLookup_cons, hfind]
        simp only []
        rw [ihf, forestLookup_nil _ (by simp)]
      · show d + 1 = _
        rw [ihd]
        show _ = ((([part] :: (properSegPrefixes (r0 :: rs)).map (fun l => part :: l)).filter
          (fun q => !(forestLookup cs q).isSome))).length
        have hall : ((([part] :: (properSegPrefixes (r0 :: rs)).map (fun l => part :: l))).filter
            (fun q => !(forestLookup cs q).isSome)) =
            ([part] :: (properSegPrefixes (r0 :: rs)).map (fun l => part :: l)) := by
          rw [List.filter_eq_self]
          intro a ha
          rcases List.mem_cons.mp ha with rfl | ha2
          · simp [forestLookup_cons, hfind]
          · rcases List.mem_map.mp ha2 with ⟨l, hl, rfl⟩
            simp [forestLookup_cons, hfind]
        rw [hall]
        have h4 : (properSegPrefixes (r0 :: rs)).filter
            (fun q => !(forestLookup Forest.nil q).isSome) = properSegPrefixes (r0 :: rs) := by
          rw [List.filter_eq_self]
          intro a ha
          rw [forestLookup_nil _ ((properSegPrefixes_mem _ a).mp ha).1]
          rfl
        rw [h4, List.length_cons, List.length_map]
    | some node =>
      have hname : node.name = part := forestFind_name cs part node hfind
      have ih := ihall (childForest node)
      rcases hre : insertSegs smap file (r0 :: rs)
          (if soFar = "" then part else soFar ++ "/" ++ part) (childForest node) with ⟨sub, f, d⟩
      rw [hre] at ih
      simp only at ih
      rcases ih with ⟨ihp, ihf, ihd⟩
      rw [insertSegs]
      simp only [hfind, hre, List.isEmpty_cons, Bool.false_eq_true, if_false]
      have hname' : (node.withChildren (.arr sub)).name = part := by
        rw [withChildren_name]; exact hname
      refine ⟨?_, ?_, ?_⟩
      · intro q hq
        cases q with
        | nil => exact absurd rfl hq
        | cons qh qt =>
          rw [lookup_replace_cons]
          pick_goal 2
          exact hname'
          pick_goal 2
          rw [hfind]
          rfl
          by_cases hqh : qh = part
          · subst hqh
            rw [if_pos rfl]
            cases qt with
            | nil =>
              rw [if_pos rfl]
              simp only [Option.isSome_some, true_iff]
              exact Or.inl (by rw [forestLookup_cons, hfind]; rfl)
            | cons q2 qs =>
              rw [if_neg (by simp), childForest_withChildren]
              rw [ihp (q2 :: qs) (by simp)]
              constructor
              · rintro (h | h)
                · refine Or.inl ?_
                  rw [forestLookup_cons, hfind]
                  exact h
                · exact Or.inr (List.cons_prefix_cons.mpr ⟨rfl, h⟩)
              · rintro (h | h)
                · rw [forestLookup_cons, hfind] at h
                  exact Or.inl h
                · exact Or.inr (List.cons_prefix_cons.mp h).2
          · rw [if_neg hqh]
            constructor
            · exact Or.inl
            · rintro (h | h)
              · exact h
              · rcases List.cons_prefix_cons.mp h with ⟨h1, _⟩
                exact absurd h1 hqh
      · rw [forestLookup_cons, hfind]
        exact ihf
      · rw [ihd]
        show _ = ((([part] :: (properSegPrefixes (r0 :: rs)).map (fun l => part :: l)).filter
          (fun q => !(forestLookup cs q).isSome))).length
        rw [List.filter_cons_of_neg (by simp [forestLookup_cons, hfind])]
        rw [List.filter_map, List.length_map]
        have h2 : (properSegPrefixes (r0 :: rs)).filter
            ((fun q => !(forestLookup cs q).isSome) ∘ (fun l => part :: l)) =
            (properSegPrefixes (r0 :: rs)).filter
            (fun q => !(forestLookup (childForest node) q).isSome) := by
          refine List.filter_congr ?_
          intro l hl
          have hlne : l ≠ [] := ((properSegPrefixes_mem _ l).mp hl).1
          cases l with
          | nil => exact absurd rfl hlne
          | cons lh lt =>
            show (!(forestLookup cs (part :: lh :: lt)).isSome) =
              (!(forestLookup (childForest node) (lh :: lt)).isSome)
            rw [forestLookup_cons, hfind]
        rw [h2]

/-- The query `q` is a segment-wise prefix of some member of `I` (the segment
lists of the files inserted so far): exactly when `forestLookup` succeeds in
the forest built from `I`. -/
def inPref (I : List (List String)) (q : List String) : Prop := ∃ g ∈ I, q <+: g

instance (I : List (List String)) (q : List String) : Decidable (inPref I q) := by
  unfold inPref
  infer_instance

theorem inPref_append (I : List (List String)) (s q : List String) :
    inPref (I ++ [s]) q ↔ (inPref I q ∨ q <+: s) := by
  unfold inPref
  constructor
  · rintro ⟨g, hg, hpre⟩
    rcases List.mem_append.mp hg with hg | hg
    · exact Or.inl ⟨g, hg, hpre⟩
    · rw [List.mem_singleton.mp hg] at hpre
      exact Or.inr hpre
  · rintro (⟨g, hg, hpre⟩ | hpre)
    · exact ⟨g, List.mem_append_left _ hg, hpre⟩
    · exact ⟨s, List.mem_append_right _ (List.mem_singleton.mpr rfl), hpre⟩

/-- When every member of `I` joins to a string at most `joinWithSlash s` in the
locale order, being a prefix of a member of `I` collapses to membership. -/
theorem inPref_of_le (I : List (List String)) (s : List String)
    (hgood : goodSegs s)
    (horder : ∀ g ∈ I, localeLe (joinWithSlash g) (joinWithSlash s) = true) :
    inPref I s ↔ s ∈ I := by
  constructor
  · rintro ⟨g, hg, t, rfl⟩
    cases t with
    | nil => simpa using hg
    | cons th tt =>
      have h1 := horder _ hg
      rw [localeLe_join_ext s (th :: tt) hgood (by simp)] at h1
      simp at h1
  · intro hs
    exact ⟨s, hs, List.prefix_refl s⟩

theorem bool_not_eq_decide (b : Bool) (P : Prop) [Decidable P] (h : b = true ↔ P) :
    (!b) = decide ¬P := by
  cases b
  · simp only [Bool.false_eq_true, false_iff] at h
    simp [h]
  · simp only [true_iff] at h
    simp [h]

theorem card_sdiff_insert_step {α : Type} [DecidableEq α] (s : α) (A B : Finset α) :
    (insert s A \ B).card = (if s ∈ B then 0 else 1) + (A \ insert s B).card := by
  by_cases hs : s ∈ B
  · rw [if_pos hs]
    have h1 : insert s A \ B = A \ B := by
      ext x
      simp only [Finset.mem_sdiff, Finset.mem_insert]
      constructor
      · rintro ⟨rfl | hx, hnb⟩
        · exact absurd hs hnb
        · exact ⟨hx, hnb⟩
      · rintro ⟨hx, hnb⟩
        exact ⟨Or.inr hx, hnb⟩
    have h2 : A \ insert s B = A \ B := by
      ext x
      simp only [Finset.mem_sdiff, Finset.mem_insert]
      constructor
      · rintro ⟨hx, hnb⟩
        exact ⟨hx, fun hb => hnb (Or.inr hb)⟩
      · rintro ⟨hx, hnb⟩
        refine ⟨hx, ?_⟩
        rintro (rfl | hb)
        · exact hnb hs
        · exact hnb hb
    rw [h1, h2, Nat.zero_add]
  · rw [if_neg hs]
    have h1 : insert s A \ B = insert s (A \ B) := by
      ext x
      simp only [Finset.mem_sdiff, Finset.mem_insert]
      constructor
      · rintro ⟨rfl | hx, hnb⟩
        · exact Or.inl rfl
        · exact Or.inr ⟨hx, hnb⟩
      · rintro (rfl | ⟨hx, hnb⟩)
        · exact ⟨Or.inl rfl, hs⟩
        · exact ⟨Or.inr hx, hnb⟩
    have h2 : A \ insert s B = (A \ B).erase s := by
      ext x
      simp only [Finset.mem_sdiff, Finset.mem_insert, Finset.mem_erase]
      constructor
      · rintro ⟨hx, hnb⟩
        exact ⟨fun he => hnb (Or.inl he), hx, fun hb => hnb (Or.inr hb)⟩
      · rintro ⟨hne, hx, hnb⟩
        refine ⟨hx, ?_⟩
        rintro (rfl | hb)
        · exact hne rfl
        · exact hnb hb
    have h3 : insert s (A \ B) = insert s ((A \ B).erase s) := by
      by_cases hm : s ∈ A \ B
      · rw [Finset.insert_erase hm]
        exact Finset.insert_eq_self.mpr hm
      · rw [Finset.erase_eq_of_not_mem hm]
    rw [h1, h2, h3, Finset.card_insert_of_not_mem (Finset.not_mem_erase _ _)]
    omega

theorem toFinset_append_singleton {α : Type} [DecidableEq α] (I : List α) (s : α) :
    (I ++ [s]).toFinset = insert s I.toFinset := by
  ext x
  simp only [List.mem_toFinset, List.mem_append, List.mem_singleton, Finset.mem_insert]
  tauto

/-- Counting invariant for `buildProjectTree`'s fold: over a sorted list of
clean-path files, starting from a forest presenting exactly the nonempty
segment prefixes of `I`, the fold adds one file per distinct new path and one
directory per distinct proper prefix that is neither reachable in `I` nor a
full file path. -/
theorem buildFold_count (smap : List (String × String)) :
    ∀ (fl : List RepositoryFile) (I : List (List String)) (cs : Forest)
      (tf td md : Nat),
    (∀ f ∈ fl, cleanPath f.path) →
    (∀ g ∈ I, goodSegs g) →
    (∀ q : List String, q ≠ [] → ((forestLookup cs q).isSome = true ↔ inPref I q)) →
    (∀ f ∈ fl, ∀ g ∈ I, localeLe (joinWithSlash g) f.path = true) →
    fl.Pairwise (fun a b => localeLe a.path b.path = true) →
    (fl.foldl (buildStep smap) (cs, tf, td, md)).2.1 =
      tf + ((fl.map (fun f => pathParts f.path)).toFinset \ I.toFinset).card ∧
    (fl.foldl (buildStep smap) (cs, tf, td, md)).2.2.1 =
      td + ((fl.flatMap (fun f => properSegPrefixes (pathParts f.path))).toFinset.filter
        (fun q => ¬ inPref I q ∧
          q ∉ (fl.map (fun f => pathParts f.path)).toFinset)).card
  | [], I, cs, tf, td, md, _, _, _, _, _ => by
    constructor
    · simp
    · simp
  | f :: r, I, cs, tf, td, md, hclean, hgood, hpres, horder, hsorted => by
    have hcleanf : cleanPath f.path := hclean f (List.mem_cons_self f r)
    have hgs : goodSegs (pathParts f.path) := goodSegs_pathParts f.path hcleanf
    have hne : pathParts f.path ≠ [] := hgs.1
    have hjoin : joinWithSlash (pathParts f.path) = f.path :=
      joinWithSlash_pathParts f.path hcleanf
    rcases List.pairwise_cons.mp hsorted with ⟨hhead, htail⟩
    have hclean2 : ∀ f' ∈ r, cleanPath f'.path :=
      fun f' hf' => hclean f' (List.mem_cons_of_mem f hf')
    rcases hre : insertSegs smap f (pathParts f.path) "" cs with ⟨cs2, nf, nd⟩
    have hspec := insertSegs_spec smap f (pathParts f.path) "" cs hne
    rw [hre] at hspec
    simp only at hspec
    rcases hspec with ⟨hp, hf, hd⟩
    have hpres2 : ∀ q : List String, q ≠ [] →
        ((forestLookup cs2 q).isSome = true ↔ inPref (I ++ [pathParts f.path]) q) := by
      intro q hq
      rw [hp q hq, hpres q hq, inPref_append]
    have horder2 : ∀ f' ∈ r, ∀ g ∈ I ++ [pathParts f.path],
        localeLe (joinWithSlash g) f'.path = true := by
      intro f' hf' g hg
      rcases List.mem_append.mp hg with hg | hg
      · exact localeLe_trans (horder f (List.mem_cons_self f r) g hg) (hhead f' hf')
      · rw [List.mem_singleton.mp hg, hjoin]
        exact hhead f' hf'
    have hgood2 : ∀ g ∈ I ++ [pathParts f.path], goodSegs g := by
      intro g hg
      rcases List.mem_append.mp hg with hg | hg
      · exact hgood g hg
      · rw [List.mem_singleton.mp hg]
        exact hgs
    have ih := buildFold_count smap r (I ++ [pathParts f.path]) cs2 (tf + nf) (td + nd)
      (max md (pathParts f.path).length) hclean2 hgood2 hpres2 horder2 htail
    rcases ih with ⟨ih1, ih2⟩
    have hstep : buildStep smap (cs, tf, td, md) f =
        (cs2, tf + nf, td + nd, max md (pathParts f.path).length) := by
      simp [buildStep, hre]
    have hiff : (forestLookup cs (pathParts f.path)).isSome = true ↔
        (pathParts f.path) ∈ I := by
      rw [hpres _ hne]
      refine inPref_of_le I _ hgs ?_
      intro g hg
      rw [hjoin]
      exact horder f (List.mem_cons_self f r) g hg
    have hnf : nf = if (pathParts f.path) ∈ I.toFinset then 0 else 1 := by
      rw [hf]
      by_cases hmem : pathParts f.path ∈ I
      · rw [if_pos (List.mem_toFinset.mpr hmem), if_pos (hiff.mpr hmem)]
      · rw [if_neg (fun hc => hmem (List.mem_toFinset.mp hc)),
          if_neg (fun hc => hmem (hiff.mp hc))]
    have hnotlater : ∀ q ∈ properSegPrefixes (pathParts f.path),
        ∀ f' ∈ r, pathParts f'.path ≠ q := by
      intro q hq f' hf' hEq
      rcases (properSegPrefixes_mem _ q).mp hq with ⟨hqne, hqs, t, hts⟩
      have htne : t ≠ [] := by
        intro h0
        rw [h0, List.append_nil] at hts
        exact hqs hts
      have hqgood : goodSegs q := goodSegs_of_prefix _ q hgs ⟨t, hts⟩ hqne
      have hle := hhead f' hf'
      have hext := localeLe_join_ext q t hqgood htne
      rw [hts, hjoin] at hext
      have hj' : joinWithSlash q = f'.path := by
        rw [← hEq]
        exact joinWithSlash_pathParts f'.path (hclean2 f' hf')
      rw [hj'] at hext
      rw [hext] at hle
      simp at hle
    have hdcard : nd =
        ((properSegPrefixes (pathParts f.path)).toFinset.filter
          (fun q => ¬ inPref I q)).card := by
      rw [hd]
      have hcong : (properSegPrefixes (pathParts f.path)).filter
          (fun q => !(forestLookup cs q).isSome) =
          (properSegPrefixes (pathParts f.path)).filter
          (fun q => decide (¬ inPref I q)) := by
        refine List.filter_congr ?_
        intro q hq
        have hqne : q ≠ [] := ((properSegPrefixes_mem _ q).mp hq).1
        exact bool_not_eq_decide _ _ (by rw [hpres q hqne])
      rw [hcong]
      rw [← List.toFinset_card_of_nodup
        (List.Nodup.filter _ (properSegPrefixes_nodup (pathParts f.path)))]
      rw [List.toFinset_filter]
      congr 1
      refine Finset.filter_congr ?_
      intro q _
      simp
    rw [List.foldl_cons, hstep]
    constructor
    · rw [ih1, toFinset_append_singleton, List.map_cons, List.toFinset_cons,
        card_sdiff_insert_step, hnf, Nat.add_assoc]
    · rw [ih2, List.flatMap_cons, List.toFinset_append, List.map_cons, List.toFinset_cons]
      have hsplit : (((properSegPrefixes (pathParts f.path)).toFinset ∪
            (r.flatMap (fun f' => properSegPrefixes (pathParts f'.path))).toFinset).filter
          (fun q => ¬ inPref I q ∧
            q ∉ insert (pathParts f.path) (r.map (fun f' => pathParts f'.path)).toFinset)) =
          ((properSegPrefixes (pathParts f.path)).toFinset.filter (fun q => ¬ inPref I q)) ∪
          ((r.flatMap (fun f' => properSegPrefixes (pathParts f'.path))).toFinset.filter
            (fun q => ¬ inPref (I ++ [pathParts f.path]) q ∧
              q ∉ (r.map (fun f' => pathParts f'.path)).toFinset)) := by
        ext q
        simp only [Finset.mem_filter, Finset.mem_union, Finset.mem_insert,
          List.mem_toFinset, List.mem_flatMap, List.mem_map, inPref_append, not_or]
        constructor
        · rintro ⟨hmem, hnI, hneq, hnF⟩
          by_cases hps : q <+: pathParts f.path
          · have hqne : q ≠ [] := by
              rcases hmem with hm | ⟨f', _, hm⟩
              · exact ((properSegPrefixes_mem _ q).mp hm).1
              · exact ((properSegPrefixes_mem _ q).mp hm).1
            exact Or.inl ⟨(properSegPrefixes_mem _ q).mpr ⟨hqne, hneq, hps⟩, hnI⟩
          · rcases hmem with hm | hm
            · exact absurd ((properSegPrefixes_mem _ q).mp hm).2.2 hps
            · exact Or.inr ⟨hm, ⟨hnI, hps⟩, hnF⟩
        · rintro (⟨hm, hnI⟩ | ⟨hm, ⟨hnI, hps⟩, hnF⟩)
          · rcases (properSegPrefixes_mem _ q).mp hm with ⟨hqne, hqs, hpre⟩
            refine ⟨Or.inl hm, hnI, hqs, ?_⟩
            rintro ⟨f', hf', hEq⟩
            exact hnotlater q hm f' hf' hEq
          · refine ⟨Or.inr hm, hnI, ?_, hnF⟩
            rintro rfl
            exact hps (List.prefix_refl _)
      rw [hsplit]
      have hdisj : Disjoint
          ((properSegPrefixes (pathParts f.path)).toFinset.filter (fun q => ¬ inPref I q))
          ((r.flatMap (fun f' => properSegPrefixes (pathParts f'.path))).toFinset.filter
            (fun q => ¬ inPref (I ++ [pathParts f.path]) q ∧
              q ∉ (r.map (fun f' => pathParts f'.path)).toFinset)) := by
        rw [Finset.disjoint_left]
        intro q hq1 hq2
        simp only [Finset.mem_filter, List.mem_toFinset] at hq1 hq2
        exact hq2.2.1 (inPref_append I _ q |>.mpr
          (Or.inr ((properSegPrefixes_mem _ q).mp hq1.1).2.2))
      rw [Finset.card_union_of_disjoint hdisj, hdcard, Nat.add_assoc]

/-- The list of proper path prefixes of a path, as strings
(`"a/b/c"` ↦ `["a", "a/b"]`). -/
def properPathPrefixList (p : String) : List String :=
  (properSegPrefixes (pathParts p)).map joinWithSlash

/-- The number of distinct `RepositoryFile.path` entries. -/
def distinctPathCount (files : List RepositoryFile) : Nat :=
  ((files.map (fun f => f.path)).toFinset).card

/-- The spec's reading of `totalDirectories`: the number of distinct proper
path prefixes of the file paths. -/
def specC4DirCount (files : List RepositoryFile) : Nat :=
  ((files.flatMap (fun f => properPathPrefixList f.path)).toFinset).card

theorem paths_toFinset_image (files : List RepositoryFile)
    (hclean : ∀ f ∈ files, cleanPath f.path) :
    (files.map (fun f => f.path)).toFinset =
      ((files.map (fun f => pathParts f.path)).toFinset).image joinWithSlash := by
  ext x
  simp only [List.mem_toFinset, List.mem_map, Finset.mem_image]
  constructor
  · rintro ⟨f, hf, rfl⟩
    exact ⟨pathParts f.path, ⟨f, hf, rfl⟩, joinWithSlash_pathParts f.path (hclean f hf)⟩
  · rintro ⟨q, ⟨f, hf, rfl⟩, rfl⟩
    exact ⟨f, hf, (joinWithSlash_pathParts f.path (hclean f hf)).symm⟩

theorem segs_mem_good (files : List RepositoryFile)
    (hclean : ∀ f ∈ files, cleanPath f.path) (q : List String)
    (hq : q ∈ (files.map (fun f => pathParts f.path)).toFinset) : goodSegs q := by
  rw [List.mem_toFinset, List.mem_map] at hq
  rcases hq with ⟨f, hf, rfl⟩
  exact goodSegs_pathParts f.path (hclean f hf)

theorem dirsegs_mem_good (files : List RepositoryFile)
    (hclean : ∀ f ∈ files, cleanPath f.path) (q : List String)
    (hq : q ∈ (files.flatMap (fun f => properSegPrefixes (pathParts f.path))).toFinset) :
    goodSegs q := by
  rw [List.mem_toFinset, List.mem_flatMap] at hq
  rcases hq with ⟨f, hf, hq⟩
  rcases (properSegPrefixes_mem _ q).mp hq with ⟨hqne, _, hpre⟩
  exact goodSegs_of_prefix _ q (goodSegs_pathParts f.path (hclean f hf)) hpre hqne

theorem paths_card_eq_segs (files : List RepositoryFile)
    (hclean : ∀ f ∈ files, cleanPath f.path) :
    ((files.map (fun f => pathParts f.path)).toFinset).card = distinctPathCount files := by
  unfold distinctPathCount
  rw [paths_toFinset_image files hclean]
  refine (Finset.card_image_of_injOn ?_).symm
  intro q1 h1 q2 h2 heq
  exact joinWithSlash_inj q1 q2
    (segs_mem_good files hclean q1 (Finset.mem_coe.mp h1))
    (segs_mem_good files hclean q2 (Finset.mem_coe.mp h2)) heq

theorem dir_sdiff_image (files : List RepositoryFile)
    (hclean : ∀ f ∈ files, cleanPath f.path) :
    (files.flatMap (fun f => properPathPrefixList f.path)).toFinset \
      (files.map (fun f => f.path)).toFinset =
    ((files.flatMap (fun f => properSegPrefixes (pathParts f.path))).toFinset \
      (files.map (fun f => pathParts f.path)).toFinset).image joinWithSlash := by
  ext x
  simp only [Finset.mem_sdiff, Finset.mem_image, List.mem_toFinset, List.mem_flatMap,
    List.mem_map, properPathPrefixList]
  constructor
  · rintro ⟨⟨f, hf, q, hq, rfl⟩, hnF⟩
    refine ⟨q, ⟨⟨f, hf, hq⟩, ?_⟩, rfl⟩
    rintro ⟨g, hg, rfl⟩
    exact hnF ⟨g, hg, (joinWithSlash_pathParts g.path (hclean g hg)).symm⟩
  · rintro ⟨q, ⟨⟨f, hf, hq⟩, hqnF⟩, rfl⟩
    have hqgood : goodSegs q := by
      rcases (properSegPrefixes_mem _ q).mp hq with ⟨hqne, _, hpre⟩
      exact goodSegs_of_prefix _ q (goodSegs_pathParts f.path (hclean f hf)) hpre hqne
    refine ⟨⟨f, hf, q, hq, rfl⟩, ?_⟩
    rintro ⟨g, hg, hgx⟩
    have hgj : joinWithSlash (pathParts g.path) = joinWithSlash q := by
      rw [joinWithSlash_pathParts g.path (hclean g hg), hgx]
    have hpq : pathParts g.path = q :=
      joinWithSlash_inj (pathParts g.path) q
        (goodSegs_pathParts g.path (hclean g hg)) hqgood hgj
    exact hqnF ⟨g, hg, hpq⟩

theorem dir_card_eq_segs (files : List RepositoryFile)
    (hclean : ∀ f ∈ files, cleanPath f.path) :
    ((files.flatMap (fun f => properSegPrefixes (pathParts f.path))).toFinset \
      (files.map (fun f => pathParts f.path)).toFinset).card =
    ((files.flatMap (fun f => properPathPrefixList f.path)).toFinset \
      (files.map (fun f => f.path)).toFinset).card := by
  rw [dir_sdiff_image files hclean]
  refine (Finset.card_image_of_injOn ?_).symm
  intro q1 h1 q2 h2 heq
  have h1' := Finset.mem_sdiff.mp (Finset.mem_coe.mp h1)
  have h2' := Finset.mem_sdiff.mp (Finset.mem_coe.mp h2)
  exact joinWithSlash_inj q1 q2
    (dirsegs_mem_good files hclean q1 h1'.1)
    (dirsegs_mem_good files hclean q2 h2'.1) heq

theorem segs_toFinset_sorted (files : List RepositoryFile) :
    ((sortedBuildFiles files).map (fun f => pathParts f.path)).toFinset =
      (files.map (fun f => pathParts f.path)).toFinset :=
  List.toFinset_eq_of_perm _ _
    ((jsSortBy_perm (fun a b => localeLe a.path b.path) files).map
      (fun f => pathParts f.path))

theorem dirsegs_toFinset_sorted (files : List RepositoryFile) :
    ((sortedBuildFiles files).flatMap (fun f => properSegPrefixes (pathParts f.path))).toFinset =
      (files.flatMap (fun f => properSegPrefixes (pathParts f.path))).toFinset := by
  have hperm := jsSortBy_perm (fun a b => localeLe a.path b.path) files
  ext q
  simp only [List.mem_toFinset, List.mem_flatMap]
  constructor
  · rintro ⟨f, hf, hq⟩
    exact ⟨f, hperm.mem_iff.mp hf, hq⟩
  · rintro ⟨f, hf, hq⟩
    exact ⟨f, hperm.mem_iff.mpr hf, hq⟩

/-- C4 counterexample: with files `"a"` and `"a/b"`, the proper path prefix
`"a"` is created as a file node, so `totalDirectories` is `0` while the number
of distinct proper path prefixes is `1`. -/
theorem C4_counterexample :
    (buildProjectTree [⟨"a", "", 0, "t"⟩, ⟨"a/b", "", 0, "t"⟩] []).totalDirectories = 0 ∧
    specC4DirCount [⟨"a", "", 0, "t"⟩, ⟨"a/b", "", 0, "t"⟩] = 1 := by
  constructor
  · decide
  · decide

/-- C4 (amended): for file lists whose paths are nonempty '/'-separated
sequences of nonempty segments, `totalFiles` equals the number of distinct
path entries, and `totalDirectories` equals the number of distinct proper path
prefixes that are not themselves file paths. -/
theorem C4_amended (files : List RepositoryFile) (subsystems : List SubsystemInfo)
    (hclean : ∀ f ∈ files, cleanPath f.path) :
    (buildProjectTree files subsystems).totalFiles = distinctPathCount files ∧
    (buildProjectTree files subsystems).totalDirectories =
      ((files.flatMap (fun f => properPathPrefixList f.path)).toFinset \
        (files.map (fun f => f.path)).toFinset).card := by
  have hperm : (sortedBuildFiles files).Perm files :=
    jsSortBy_perm (fun (a b : RepositoryFile) => localeLe a.path b.path) files
  have hclean' : ∀ f ∈ sortedBuildFiles files, cleanPath f.path :=
    fun f hf => hclean f (hperm.mem_iff.mp hf)
  have hpres0 : ∀ q : List String, q ≠ [] →
      ((forestLookup Forest.nil q).isSome = true ↔ inPref [] q) := by
    intro q hq
    rw [forestLookup_nil q hq]
    simp [inPref]
  have hsorted : (sortedBuildFiles files).Pairwise
      (fun a b => localeLe a.path b.path = true) := by
    refine jsSortBy_pairwise (fun (a b : RepositoryFile) => localeLe a.path b.path) ?_ ?_ files
    · intro a b c hab hbc
      exact localeLe_trans hab hbc
    · intro a b
      exact localeLe_total _ _
  have hmain := buildFold_count (subsystems.foldl
      (fun m s => s.files.foldl (fun m fp => jsMapSet m fp s.type) m) [])
    (sortedBuildFiles files) [] Forest.nil 0 0 0 hclean'
    (by intro g hg; simp at hg) hpres0
    (by intro f _ g hg; simp at hg) hsorted
  rcases hmain with ⟨h1, h2⟩
  constructor
  · have htf : (buildProjectTree files subsystems).totalFiles =
        ((sortedBuildFiles files).foldl (buildStep (subsystems.foldl
          (fun m s => s.files.foldl (fun m fp => jsMapSet m fp s.type) m) []))
          (Forest.nil, 0, 0, 0)).2.1 := rfl
    rw [htf, h1]
    simp only [List.toFinset_nil, Finset.sdiff_empty, Nat.zero_add]
    rw [segs_toFinset_sorted files, paths_card_eq_segs files hclean]
  · have htd : (buildProjectTree files subsystems).totalDirectories =
        ((sortedBuildFiles files).foldl (buildStep (subsystems.foldl
          (fun m s => s.files.foldl (fun m fp => jsMapSet m fp s.type) m) []))
          (Forest.nil, 0, 0, 0)).2.2.1 := rfl
    rw [htd, h2]
    have hfc : (((sortedBuildFiles files).flatMap
          (fun f => properSegPrefixes (pathParts f.path))).toFinset.filter
        (fun q => ¬ inPref [] q ∧
          q ∉ ((sortedBuildFiles files).map (fun f => pathParts f.path)).toFinset)) =
        ((sortedBuildFiles files).flatMap
          (fun f => properSegPrefixes (pathParts f.path))).toFinset \
        ((sortedBuildFiles files).map (fun f => pathParts f.path)).toFinset := by
      rw [Finset.sdiff_eq_filter]
      refine Finset.filter_congr ?_
      intro q _
      simp [inPref]
    rw [hfc, segs_toFinset_sorted files, dirsegs_toFinset_sorted files]
    rw [Nat.zero_add, dir_card_eq_segs files hclean]

theorem C4_amended_witness :
    (∀ f ∈ ([⟨"src/a.ts", "", 1, "typescript"⟩, ⟨"src/b.ts", "", 1, "typescript"⟩] :
        List RepositoryFile), cleanPath f.path) ∧
    ((buildProjectTree
        [⟨"src/a.ts", "", 1, "typescript"⟩, ⟨"src/b.ts", "", 1, "typescript"⟩] []).totalFiles =
      distinctPathCount
        [⟨"src/a.ts", "", 1, "typescript"⟩, ⟨"src/b.ts", "", 1, "typescript"⟩] ∧
     (buildProjectTree
        [⟨"src/a.ts", "", 1, "typescript"⟩, ⟨"src/b.ts", "", 1, "typescript"⟩]
        []).totalDirectories =
      ((([⟨"src/a.ts", "", 1, "typescript"⟩, ⟨"src/b.ts", "", 1, "typescript"⟩] :
          List RepositoryFile).flatMap (fun f => properPathPrefixList f.path)).toFinset \
        (([⟨"src/a.ts", "", 1, "typescript"⟩, ⟨"src/b.ts", "", 1, "typescript"⟩] :
          List RepositoryFile).map (fun f => f.path)).toFinset).card) :=
  ⟨by decide, C4_amended
    [⟨"src/a.ts", "", 1, "typescript"⟩, ⟨"src/b.ts", "", 1, "typescript"⟩] [] (by decide)⟩
